import Mathlib

/-!
# mautrix-go: encrypted event content codec and room state store

A shallow embedding of `event/encryption.go` (the `EncryptedEventContent`
JSON hooks) and of `room.go` (the room state map and its queries), with the
properties of the specification stated and proved over it.

Modelling conventions.

* A Go string is the list of its bytes (`GoString`), valid UTF-8 or not. A JSON
  string is a Lean `String`, a sequence of Unicode code points: the decoder
  stores its UTF-8 encoding, and `json.Marshal` writes a Go string with every
  byte that is not part of a valid encoding replaced by U+FFFD.
* A byte buffer handed to or produced by `encoding/json` is represented by what
  the package's scanner makes of it: `Bytes.nil` (a nil slice),
  `Bytes.malformed` (bytes that are not exactly one JSON text, the empty
  non-nil slice included) or `Bytes.text j` (the JSON text of the value `j`;
  insignificant white space is not represented).
* A JSON object is the list of its members in document order; duplicate
  member names are representable, as they are on the wire.
* The scanner of `encoding/json` refuses a text nested deeper than 10000
  arrays and objects, when decoding and when it compacts a `RawMessage`.
* `json.Unmarshal` keeps the first type error it meets and goes on decoding;
  the decoders below return the updated target together with that first error.
* Go's `int` is the 64-bit signed range.
* A Go map is a reference to a map object, or nil. The state map of a room
  holds references to its inner map objects, which live in `Room.Maps`; two
  event types may hold the same reference.
-/

namespace Mautrix

/-! ## JSON values, byte buffers and errors -/

/-- JSON values. A number literal without fraction and exponent is `int`;
any other number literal is `real`, kept as its text. -/
inductive Json where
  | null
  | bool (b : Bool)
  | int (n : Int)
  | real (text : String)
  | str (s : String)
  | arr (items : List Json)
  | obj (members : List (String × Json))

mutual
/-- The nesting depth of a JSON value: how many arrays and objects are open
at its deepest point. -/
def Json.depth : Json → Nat
  | .arr items => depthItems items + 1
  | .obj members => depthMembers members + 1
  | _ => 0
/-- The largest nesting depth among the items of an array. -/
def depthItems : List Json → Nat
  | [] => 0
  | x :: xs => max x.depth (depthItems xs)
/-- The largest nesting depth among the member values of an object. -/
def depthMembers : List (String × Json) → Nat
  | [] => 0
  | m :: ms => max m.2.depth (depthMembers ms)
end

/-- The scanner's `maxNestingDepth`. -/
def maxNestingDepth : Nat := 10000

/-- Byte buffers as `encoding/json` sees them (`[]byte`, `json.RawMessage`). -/
inductive Bytes where
  | nil
  | malformed
  | text (j : Json)

/-- The kind of JSON value named in an `UnmarshalTypeError`. -/
inductive JsonKind where
  | object
  | array
  | string
  | number
  | bool
  deriving DecidableEq, Repr

/-- Errors returned by `encoding/json`. -/
inductive JsonError where
  | syntaxError
  | unmarshalTypeError (value : JsonKind) (goType : String)
  | marshalerError
  deriving DecidableEq, Repr

/-- The JSON kind of a non-null value; `none` for `null`. -/
def Json.kind : Json → Option JsonKind
  | .null => none
  | .bool _ => some .bool
  | .int _ => some .number
  | .real _ => some .number
  | .str _ => some .string
  | .arr _ => some .array
  | .obj _ => some .object

/-- The decoder's `saveError`: only the first error is kept. -/
def saveError (saved : Option JsonError) (err : Option JsonError) : Option JsonError :=
  match saved with
  | some e => some e
  | none => err

/-! ## Go strings and UTF-8 -/

/-- A byte. -/
abbrev Byte := Fin 256

/-- A Go string: any sequence of bytes. -/
abbrev GoString := List Byte

/-- The byte with the given value, modulo 256. -/
def byte (n : Nat) : Byte := ⟨n % 256, Nat.mod_lt _ (by decide)⟩

/-- The UTF-8 encoding of a code point. -/
def utf8Char (c : Char) : List Byte :=
  if c.toNat < 128 then [byte c.toNat]
  else if c.toNat < 2048 then [byte (192 + c.toNat / 64), byte (128 + c.toNat % 64)]
  else if c.toNat < 65536 then
    [byte (224 + c.toNat / 4096), byte (128 + c.toNat / 64 % 64), byte (128 + c.toNat % 64)]
  else
    [byte (240 + c.toNat / 262144), byte (128 + c.toNat / 4096 % 64),
     byte (128 + c.toNat / 64 % 64), byte (128 + c.toNat % 64)]

/-- The UTF-8 encoding of a sequence of code points. -/
def utf8 : List Char → List Byte
  | [] => []
  | c :: cs => utf8Char c ++ utf8 cs

/-- A continuation byte, `0x80` to `0xBF`. -/
def isCont (b : Byte) : Prop := 128 ≤ b.val ∧ b.val < 192

instance (b : Byte) : Decidable (isCont b) := by
  unfold isCont
  infer_instance

/-- The `utf8.DecodeRune` of Go: the code point at the head of the bytes and
the width of its encoding, or `none` where Go returns `(RuneError, 1)`: an
empty input, a stray or missing continuation byte, an overlong encoding, a
surrogate, or a value above U+10FFFF. -/
def decodeRune : List Byte → Option (Nat × Nat)
  | [] => none
  | b0 :: rest =>
    if b0.val < 128 then some (b0.val, 1)
    else if 194 ≤ b0.val ∧ b0.val < 224 then
      match rest with
      | b1 :: _ =>
        if isCont b1 then some ((b0.val - 192) * 64 + (b1.val - 128), 2) else none
      | _ => none
    else if 224 ≤ b0.val ∧ b0.val < 240 then
      match rest with
      | b1 :: b2 :: _ =>
        if isCont b1 ∧ isCont b2 ∧
            2048 ≤ (b0.val - 224) * 4096 + (b1.val - 128) * 64 + (b2.val - 128) ∧
            ((b0.val - 224) * 4096 + (b1.val - 128) * 64 + (b2.val - 128) < 55296 ∨
             57343 < (b0.val - 224) * 4096 + (b1.val - 128) * 64 + (b2.val - 128)) then
          some ((b0.val - 224) * 4096 + (b1.val - 128) * 64 + (b2.val - 128), 3)
        else none
      | _ => none
    else if 240 ≤ b0.val ∧ b0.val < 245 then
      match rest with
      | b1 :: b2 :: b3 :: _ =>
        if isCont b1 ∧ isCont b2 ∧ isCont b3 ∧
            65536 ≤ (b0.val - 240) * 262144 + (b1.val - 128) * 4096 + (b2.val - 128) * 64 +
              (b3.val - 128) ∧
            (b0.val - 240) * 262144 + (b1.val - 128) * 4096 + (b2.val - 128) * 64 +
              (b3.val - 128) < 1114112 then
          some ((b0.val - 240) * 262144 + (b1.val - 128) * 4096 + (b2.val - 128) * 64 +
            (b3.val - 128), 4)
        else none
      | _ => none
    else none

/-- The code points `json.Marshal` writes for a Go string: each valid
encoding is read as its code point, and each byte that starts no valid encoding
is replaced by U+FFFD. The first argument bounds the number of steps. -/
def coerceAux : Nat → List Byte → List Char
  | 0, _ => []
  | fuel + 1, l =>
    match decodeRune l with
    | some (n, w) => Char.ofNat n :: coerceAux fuel (l.drop w)
    | none =>
      match l with
      | [] => []
      | _ :: rest => Char.ofNat 65533 :: coerceAux fuel rest

/-- The Go string holding the UTF-8 encoding of a string of code points: what
the decoder stores for a JSON string. -/
def GoString.ofString (s : String) : GoString := utf8 s.data

/-- The JSON string `json.Marshal` writes for a Go string, with U+FFFD for each
byte that is not part of a valid UTF-8 encoding. -/
def GoString.toValidUTF8 (g : GoString) : String := ⟨coerceAux g.length g⟩

/-- A Go string is valid UTF-8: it is the encoding of the string
`json.Marshal` writes for it. -/
def GoString.IsUTF8 (g : GoString) : Prop := GoString.ofString g.toValidUTF8 = g

instance (g : GoString) : Decidable g.IsUTF8 := by
  unfold GoString.IsUTF8
  infer_instance

/-! ## Go maps with string keys, in canonical (key-sorted) form -/

/-- A finite map with Go strings as keys, stored as the list of its entries in
strictly increasing key order (byte-wise, the order in which `json.Marshal`
emits a map). -/
structure StrMap (V : Type) where
  entries : List (GoString × V)
  sorted : entries.Pairwise (fun a b => a.1 < b.1)

/-- Ordered insertion of a binding, replacing the binding of an equal key. -/
def insertEntry {V : Type} (k : GoString) (v : V) :
    List (GoString × V) → List (GoString × V)
  | [] => [(k, v)]
  | (k', v') :: rest =>
    if k < k' then (k, v) :: (k', v') :: rest
    else if k = k' then (k, v) :: rest
    else (k', v') :: insertEntry k v rest

namespace StrMap

variable {V : Type}

/-- The empty, non-nil map: `make(map[string]V)`. -/
def empty : StrMap V := ⟨[], List.Pairwise.nil⟩

/-- Map assignment `m[k] = v`. -/
def insert (m : StrMap V) (k : GoString) (v : V) : StrMap V :=
  ⟨insertEntry k v m.entries, by
    have hbound : ∀ (b : GoString) (l : List (GoString × V)), b < k → (∀ p ∈ l, b < p.1) →
        ∀ p ∈ insertEntry k v l, b < p.1 := by
      intro b l
      induction l with
      | nil =>
        intro hb _ p hp
        simp only [insertEntry, List.mem_singleton] at hp
        subst hp
        exact hb
      | cons hd tl ih =>
        intro hb hl p hp
        obtain ⟨k', v'⟩ := hd
        simp only [insertEntry] at hp
        split_ifs at hp with h1 h2
        · rcases List.mem_cons.1 hp with h | h
          · subst h
            exact hb
          · exact hl p h
        · rcases List.mem_cons.1 hp with h | h
          · subst h
            exact hb
          · exact hl p (List.mem_cons_of_mem _ h)
        · rcases List.mem_cons.1 hp with h | h
          · subst h
            exact hl _ (List.mem_cons_self _ _)
          · exact ih hb (fun q hq => hl q (List.mem_cons_of_mem _ hq)) p h
    have hsorted : ∀ (l : List (GoString × V)), l.Pairwise (fun a b => a.1 < b.1) →
        (insertEntry k v l).Pairwise (fun a b => a.1 < b.1) := by
      intro l
      induction l with
      | nil =>
        intro _
        simp [insertEntry]
      | cons hd tl ih =>
        intro hs
        obtain ⟨k', v'⟩ := hd
        rw [List.pairwise_cons] at hs
        obtain ⟨hhd, htl⟩ := hs
        simp only [insertEntry]
        split_ifs with h1 h2
        · refine List.pairwise_cons.2 ⟨?_, List.pairwise_cons.2 ⟨hhd, htl⟩⟩
          intro p hp
          rcases List.mem_cons.1 hp with h | h
          · subst h
            exact h1
          · exact lt_trans h1 (hhd p h)
        · subst h2
          exact List.pairwise_cons.2 ⟨hhd, htl⟩
        · refine List.pairwise_cons.2 ⟨?_, ih htl⟩
          have hlt : k' < k := lt_of_le_of_ne (not_lt.1 h1) (fun h => h2 h.symm)
          exact hbound k' tl hlt hhd
    exact hsorted m.entries m.sorted⟩

/-- Map lookup `m[k]` with the comma-ok result. -/
def lookup (m : StrMap V) (k : GoString) : Option V :=
  (m.entries.find? (fun p => p.1 = k)).map Prod.snd

instance [DecidableEq V] : DecidableEq (StrMap V) := fun a b =>
  decidable_of_iff (a.entries = b.entries)
    ⟨fun h => by
      cases a
      cases b
      simp only [mk.injEq]
      exact h, fun h => by rw [h]⟩

end StrMap

/-! ## `event/encryption.go`: data -/

/-- Go's `int`, 64 bits wide. -/
def minInt : Int := -9223372036854775808

/-- Largest value of Go's `int`. -/
def maxInt : Int := 9223372036854775807

/-- `type Algorithm string`. -/
abbrev Algorithm := GoString

/-- `AlgorithmOlmV1`. -/
def AlgorithmOlmV1 : Algorithm := GoString.ofString "m.olm.v1.curve25519-aes-sha2"

/-- `AlgorithmMegolmV1`. -/
def AlgorithmMegolmV1 : Algorithm := GoString.ofString "m.megolm.v1.aes-sha2"

/-- `type OlmMessageType int`. -/
abbrev OlmMessageType := { n : Int // minInt ≤ n ∧ n ≤ maxInt }

/-- `OlmPreKeyMessage`. -/
def OlmPreKeyMessage : OlmMessageType := ⟨0, by decide⟩

/-- `OlmNormalMessage`. -/
def OlmNormalMessage : OlmMessageType := ⟨1, by decide⟩

/-- The element type of `OlmCiphertexts`:
`struct { Body string; Type OlmMessageType }` (the field `Type` is `Typ` here). -/
structure OlmEntry where
  Body : GoString
  Typ : OlmMessageType
  deriving DecidableEq

/-- `type OlmCiphertexts map[string]struct{...}`; `none` is the nil map. -/
abbrev OlmCiphertexts := Option (StrMap OlmEntry)

/-- `type EncryptedEventContent struct`. -/
structure EncryptedEventContent where
  Algorithm : Algorithm
  SenderKey : GoString
  DeviceID : GoString
  SessionID : GoString
  Ciphertext : Bytes
  MegolmCiphertext : GoString
  OlmCiphertext : OlmCiphertexts

/-- The zero value of `EncryptedEventContent` (a fresh value). -/
def EncryptedEventContent.zero : EncryptedEventContent :=
  { Algorithm := [], SenderKey := [], DeviceID := [], SessionID := [],
    Ciphertext := Bytes.nil, MegolmCiphertext := [], OlmCiphertext := none }

/-! ## `encoding/json`: decoding into the types of `encryption.go` -/

/-- Rune folding used to match object keys with field names. Only the runes
that fold to an ASCII letter matter for ASCII field names: the lower-case
ASCII letters, U+017F (long s) and U+212A (Kelvin sign). -/
def foldRune (c : Char) : Char :=
  if 97 ≤ c.toNat ∧ c.toNat ≤ 122 then Char.ofNat (c.toNat - 32)
  else if c.toNat = 383 then 'S'
  else if c.toNat = 8490 then 'K'
  else c

/-- The decoder's `foldName`. -/
def foldName (s : String) : List Char := s.data.map foldRune

/-- Field lookup of the struct decoder: the field with exactly this JSON name,
and failing that the first field with the same folded name. -/
def lookupField {F : Type} (fields : List (String × F)) (key : String) : Option F :=
  match fields.find? (fun f => f.1 = key) with
  | some f => some f.2
  | none => (fields.find? (fun f => foldName f.1 = foldName key)).map Prod.snd

/-- The JSON-visible fields of `serializableEncryptedEventContent`
(`MegolmCiphertext` and `OlmCiphertext` are tagged `json:"-"`). -/
inductive Field where
  | algorithm
  | senderKey
  | deviceID
  | sessionID
  | ciphertext
  deriving DecidableEq, Repr

/-- The struct's fields with their JSON names, in declaration order. -/
def envelopeFields : List (String × Field) :=
  [("algorithm", .algorithm), ("sender_key", .senderKey), ("device_id", .deviceID),
   ("session_id", .sessionID), ("ciphertext", .ciphertext)]

/-- The field an object key of the envelope binds to, if any. -/
def fieldOf (key : String) : Option Field := lookupField envelopeFields key

/-- The fields of the `OlmCiphertexts` element struct. -/
inductive OlmField where
  | body
  | typ
  deriving DecidableEq, Repr

/-- The element struct's fields with their JSON names. -/
def olmFields : List (String × OlmField) := [("body", .body), ("type", .typ)]

/-- The field an object key of an `OlmCiphertexts` element binds to, if any. -/
def olmFieldOf (key : String) : Option OlmField := lookupField olmFields key

/-- Decoding a JSON value into a Go string: `null` has no effect, a JSON string
is stored, anything else is an `UnmarshalTypeError` and leaves the target. -/
def decodeString (goType : String) (j : Json) (cur : GoString) : GoString × Option JsonError :=
  match j with
  | .null => (cur, none)
  | .str s => (GoString.ofString s, none)
  | .bool _ => (cur, some (.unmarshalTypeError .bool goType))
  | .int _ => (cur, some (.unmarshalTypeError .number goType))
  | .real _ => (cur, some (.unmarshalTypeError .number goType))
  | .arr _ => (cur, some (.unmarshalTypeError .array goType))
  | .obj _ => (cur, some (.unmarshalTypeError .object goType))

/-- Decoding a JSON value into a Go `int`: `null` has no effect, an integer
literal in range is stored, anything else is an `UnmarshalTypeError`. -/
def decodeInt (goType : String) (j : Json) (cur : OlmMessageType) :
    OlmMessageType × Option JsonError :=
  match j with
  | .null => (cur, none)
  | .int n =>
    if h : minInt ≤ n ∧ n ≤ maxInt then (⟨n, h⟩, none)
    else (cur, some (.unmarshalTypeError .number goType))
  | .real _ => (cur, some (.unmarshalTypeError .number goType))
  | .bool _ => (cur, some (.unmarshalTypeError .bool goType))
  | .str _ => (cur, some (.unmarshalTypeError .string goType))
  | .arr _ => (cur, some (.unmarshalTypeError .array goType))
  | .obj _ => (cur, some (.unmarshalTypeError .object goType))

/-- One member of an object decoded into the envelope struct. The
`Ciphertext` field is a `json.RawMessage`, an `Unmarshaler` that copies the
member's text whatever it is (`null` included). -/
def setEnvelopeField (c : EncryptedEventContent) (f : Field) (j : Json) :
    EncryptedEventContent × Option JsonError :=
  match f with
  | .algorithm =>
    let r := decodeString "event.Algorithm" j c.Algorithm
    ({ c with Algorithm := r.1 }, r.2)
  | .senderKey =>
    let r := decodeString "string" j c.SenderKey
    ({ c with SenderKey := r.1 }, r.2)
  | .deviceID =>
    let r := decodeString "id.DeviceID" j c.DeviceID
    ({ c with DeviceID := r.1 }, r.2)
  | .sessionID =>
    let r := decodeString "string" j c.SessionID
    ({ c with SessionID := r.1 }, r.2)
  | .ciphertext => ({ c with Ciphertext := Bytes.text j }, none)

/-- The decoder's loop over the members of an object, for the envelope struct:
a key that binds to no field is skipped. -/
def envelopeStep (st : EncryptedEventContent × Option JsonError) (m : String × Json) :
    EncryptedEventContent × Option JsonError :=
  match fieldOf m.1 with
  | none => st
  | some f =>
    let r := setEnvelopeField st.1 f m.2
    (r.1, saveError st.2 r.2)

/-- `json.Unmarshal(data, (*serializableEncryptedEventContent)(content))`. The
whole text is checked first: bytes that are not JSON, or JSON nested deeper
than `maxNestingDepth`, are a `SyntaxError` and nothing is stored. -/
def unmarshalEnvelope (data : Bytes) (c : EncryptedEventContent) :
    EncryptedEventContent × Option JsonError :=
  match data with
  | .nil => (c, some .syntaxError)
  | .malformed => (c, some .syntaxError)
  | .text j =>
    if maxNestingDepth < j.depth then (c, some .syntaxError)
    else
      match j with
      | .null => (c, none)
      | .obj members => members.foldl envelopeStep (c, none)
      | .bool _ =>
        (c, some (.unmarshalTypeError .bool "event.serializableEncryptedEventContent"))
      | .int _ =>
        (c, some (.unmarshalTypeError .number "event.serializableEncryptedEventContent"))
      | .real _ =>
        (c, some (.unmarshalTypeError .number "event.serializableEncryptedEventContent"))
      | .str _ =>
        (c, some (.unmarshalTypeError .string "event.serializableEncryptedEventContent"))
      | .arr _ =>
        (c, some (.unmarshalTypeError .array "event.serializableEncryptedEventContent"))

/-- `json.Unmarshal(data, &s)` for a Go string `s`. -/
def unmarshalString (data : Bytes) (cur : GoString) : GoString × Option JsonError :=
  match data with
  | .nil => (cur, some .syntaxError)
  | .malformed => (cur, some .syntaxError)
  | .text j =>
    if maxNestingDepth < j.depth then (cur, some .syntaxError)
    else decodeString "string" j cur

/-- One member of an object decoded into an `OlmCiphertexts` element. -/
def olmEntryStep (st : OlmEntry × Option JsonError) (m : String × Json) :
    OlmEntry × Option JsonError :=
  match olmFieldOf m.1 with
  | none => st
  | some .body =>
    let r := decodeString "string" m.2 st.1.Body
    ({ st.1 with Body := r.1 }, saveError st.2 r.2)
  | some .typ =>
    let r := decodeInt "event.OlmMessageType" m.2 st.1.Typ
    ({ st.1 with Typ := r.1 }, saveError st.2 r.2)

/-- Decoding a JSON value into an `OlmCiphertexts` element struct. -/
def decodeOlmEntry (j : Json) (cur : OlmEntry) : OlmEntry × Option JsonError :=
  match j with
  | .null => (cur, none)
  | .obj members => members.foldl olmEntryStep (cur, none)
  | .bool _ => (cur, some (.unmarshalTypeError .bool "struct"))
  | .int _ => (cur, some (.unmarshalTypeError .number "struct"))
  | .real _ => (cur, some (.unmarshalTypeError .number "struct"))
  | .str _ => (cur, some (.unmarshalTypeError .string "struct"))
  | .arr _ => (cur, some (.unmarshalTypeError .array "struct"))

/-- The zero value of the element struct. -/
def OlmEntry.zero : OlmEntry := { Body := [], Typ := OlmPreKeyMessage }

/-- One member of an object decoded into a map: the value is decoded into a
zeroed element, which is then stored under the key (also after a type error). -/
def olmMapStep (st : StrMap OlmEntry × Option JsonError) (m : String × Json) :
    StrMap OlmEntry × Option JsonError :=
  let r := decodeOlmEntry m.2 OlmEntry.zero
  (st.1.insert (GoString.ofString m.1) r.1, saveError st.2 r.2)

/-- `json.Unmarshal(data, &m)` for `m` of type `OlmCiphertexts`: `null` sets
the map to nil; an object is decoded into the map, which is made first when nil. -/
def unmarshalOlmCiphertexts (data : Bytes) (cur : OlmCiphertexts) :
    OlmCiphertexts × Option JsonError :=
  match data with
  | .nil => (cur, some .syntaxError)
  | .malformed => (cur, some .syntaxError)
  | .text j =>
    if maxNestingDepth < j.depth then (cur, some .syntaxError)
    else
      match j with
      | .null => (none, none)
      | .obj members =>
        let r := members.foldl olmMapStep (cur.getD StrMap.empty, none)
        (some r.1, r.2)
      | .bool _ => (cur, some (.unmarshalTypeError .bool "event.OlmCiphertexts"))
      | .int _ => (cur, some (.unmarshalTypeError .number "event.OlmCiphertexts"))
      | .real _ => (cur, some (.unmarshalTypeError .number "event.OlmCiphertexts"))
      | .str _ => (cur, some (.unmarshalTypeError .string "event.OlmCiphertexts"))
      | .arr _ => (cur, some (.unmarshalTypeError .array "event.OlmCiphertexts"))

/-! ## `encoding/json`: encoding the types of `encryption.go` -/

/-- `json.Marshal(s)` for a Go string: the JSON string of its bytes, with
U+FFFD for each byte that is not valid UTF-8. -/
def marshalString (s : GoString) : Except JsonError Json := .ok (.str s.toValidUTF8)

/-- The encoding of an `OlmCiphertexts` element. -/
def marshalOlmEntry (e : OlmEntry) : Json :=
  .obj [("body", .str e.Body.toValidUTF8), ("type", .int e.Typ.val)]

/-- `json.Marshal(m)` for `m` of type `OlmCiphertexts`: `null` for the nil
map, otherwise the object of its entries in key order. -/
def marshalOlmCiphertexts (m : OlmCiphertexts) : Except JsonError Json :=
  match m with
  | none => .ok .null
  | some m => .ok (.obj (m.entries.map (fun p => (p.1.toValidUTF8, marshalOlmEntry p.2))))

/-- `RawMessage.MarshalJSON` followed by the encoder's compaction of what it
returned: `null` for a nil message, an error for bytes that are not JSON or
that nest deeper than `maxNestingDepth`. -/
def marshalRawMessage (raw : Bytes) : Except JsonError Json :=
  match raw with
  | .nil => .ok .null
  | .malformed => .error .marshalerError
  | .text j => if maxNestingDepth < j.depth then .error .marshalerError else .ok j

/-- `json.Marshal((*serializableEncryptedEventContent)(content))`. -/
def marshalEnvelope (c : EncryptedEventContent) : Except JsonError Json :=
  match marshalRawMessage c.Ciphertext with
  | .error e => .error e
  | .ok ct =>
    .ok (.obj [("algorithm", .str c.Algorithm.toValidUTF8),
               ("sender_key", .str c.SenderKey.toValidUTF8),
               ("device_id", .str c.DeviceID.toValidUTF8),
               ("session_id", .str c.SessionID.toValidUTF8),
               ("ciphertext", ct)])

/-! ## `event/encryption.go`: the JSON hooks -/

/-- `func (content *EncryptedEventContent) UnmarshalJSON(data []byte) error`:
the content after the call and the returned error (`none` is `nil`). -/
def EncryptedEventContent.UnmarshalJSON (content : EncryptedEventContent) (data : Bytes) :
    EncryptedEventContent × Option JsonError :=
  let r := unmarshalEnvelope data content
  match r.2 with
  | some err => (r.1, some err)
  | none =>
    let content := r.1
    if content.Algorithm = AlgorithmOlmV1 then
      let content := { content with OlmCiphertext := some StrMap.empty }
      let r := unmarshalOlmCiphertexts content.Ciphertext content.OlmCiphertext
      ({ content with OlmCiphertext := r.1 }, r.2)
    else if content.Algorithm = AlgorithmMegolmV1 then
      let r := unmarshalString content.Ciphertext content.MegolmCiphertext
      ({ content with MegolmCiphertext := r.1 }, r.2)
    else (content, none)

/-- `func (content *EncryptedEventContent) MarshalJSON() ([]byte, error)`:
the content after the call (the method assigns `content.Ciphertext`) and the
returned bytes or error. -/
def EncryptedEventContent.MarshalJSON (content : EncryptedEventContent) :
    EncryptedEventContent × Except JsonError Bytes :=
  let r : EncryptedEventContent × Option JsonError :=
    if content.Algorithm = AlgorithmOlmV1 then
      match marshalOlmCiphertexts content.OlmCiphertext with
      | .ok j => ({ content with Ciphertext := Bytes.text j }, none)
      | .error e => ({ content with Ciphertext := Bytes.nil }, some e)
    else if content.Algorithm = AlgorithmMegolmV1 then
      match marshalString content.MegolmCiphertext with
      | .ok j => ({ content with Ciphertext := Bytes.text j }, none)
      | .error e => ({ content with Ciphertext := Bytes.nil }, some e)
    else (content, none)
  match r.2 with
  | some err => (r.1, .error err)
  | none =>
    match marshalEnvelope r.1 with
    | .ok j => (r.1, .ok (Bytes.text j))
    | .error e => (r.1, .error e)

/-! ## `room.go`: the room state store -/

/-- Modelled from the spec: `event.Type`, declared outside the files at hand;
a comparable value naming an event type (its name and its class). -/
structure EventType where
  Name : String
  Class : Nat
  deriving DecidableEq, Repr

/-- Modelled from the spec: `event.Content`, declared outside the files at
hand; only its `Raw` key-value access is used, a `map[string]interface{}`
whose values are the decoded JSON values. -/
structure Content where
  Raw : Option (AList (fun _ : String => Json))

/-- Modelled from the spec: `event.Event`, declared outside the files at hand;
it provides the type, the optional state key (`*string`, `none` when nil) and
the content. -/
structure Event where
  Typ : EventType
  StateKey : Option String
  Content : Content

/-- Modelled from the spec: `event.StateMember`, the membership event type. -/
def StateMember : EventType := { Name := "m.room.member", Class := 1 }

/-- Modelled from the spec: `event.Membership`, a string type. -/
abbrev Membership := String

/-- Modelled from the spec: `event.MembershipLeave`. -/
def MembershipLeave : Membership := "leave"

/-- Run-time panics of the Go code. -/
inductive Panic where
  | nilPointerDereference
  | assignmentToNilMap
  deriving DecidableEq, Repr

/-- A Go map: `none` is the nil map, which can be read but not assigned to. -/
abbrev GoMap (K V : Type) := Option (AList (fun _ : K => V))

/-- The index expression `m[k]` with the comma-ok result; reading a nil map
finds nothing. -/
def GoMap.index {K V : Type} [DecidableEq K] (m : GoMap K V) (k : K) : Option V :=
  match m with
  | none => none
  | some a => a.lookup k

/-- The assignment `m[k] = v`; it panics on a nil map. -/
def GoMap.assign {K V : Type} [DecidableEq K] (m : GoMap K V) (k : K) (v : V) :
    Except Panic (GoMap K V) :=
  match m with
  | none => .error .assignmentToNilMap
  | some a => .ok (some (a.insert k v))

/-- The address of a map object. -/
abbrev Ref := Nat

/-- A map object of type `map[string]*event.Event`; a stored `none` is a
stored nil pointer. -/
abbrev EventMap := AList (fun _ : String => Option Event)

/-- A value of type `map[string]*event.Event`: nil, or the reference to a map
object. -/
abbrev StateEventMap := Option Ref

/-- `type RoomStateMap = map[event.Type]map[string]*event.Event`. -/
abbrev RoomStateMap := GoMap EventType StateEventMap

/-- `type Room struct`, together with the map objects its state map refers
to: `Maps r` is the map object at address `r`. -/
structure Room where
  ID : String
  State : RoomStateMap
  Maps : Ref → EventMap

/-- The map objects after the object at address `r` has become `m`. -/
def setMap (maps : Ref → EventMap) (r : Ref) (m : EventMap) : Ref → EventMap :=
  fun x => if x = r then m else maps x

/-- The first address after the one a value of the state map holds. -/
def nextRef (v : StateEventMap) : Ref :=
  match v with
  | some x => x + 1
  | none => 0

/-- An address that no entry of the state map holds: where `make` puts a new
map object. -/
def freshRef (st : RoomStateMap) : Ref :=
  match st with
  | none => 0
  | some a => a.entries.foldr (fun p r => max (nextRef p.2) r) 0

/-- `func (room Room) UpdateState(evt *event.Event)`: the room after the call
(the maps are shared with the caller's room) and the panic that ended the
call, if any. The last statement writes into the map object that the state map
holds for the event's type. -/
def Room.UpdateState (room : Room) (evt : Option Event) : Room × Option Panic :=
  match evt with
  | none => (room, some .nilPointerDereference)
  | some e =>
    let exists_ := (room.State.index e.Typ).isSome
    let made : Except Panic Room :=
      if !exists_ then
        match room.State.assign e.Typ (some (freshRef room.State)) with
        | .ok st =>
          .ok { room with State := st, Maps := setMap room.Maps (freshRef room.State) ∅ }
        | .error p => .error p
      else .ok room
    match made with
    | .error p => (room, some p)
    | .ok room =>
      match e.StateKey with
      | none => (room, some .nilPointerDereference)
      | some stateKey =>
        let inner : StateEventMap := (room.State.index e.Typ).getD none
        match inner with
        | none => (room, some .assignmentToNilMap)
        | some r =>
          ({ room with Maps := setMap room.Maps r ((room.Maps r).insert stateKey (some e)) },
           none)

/-- `func (room Room) GetStateEvent(eventType event.Type, stateKey string) *event.Event`:
the room after the call, the panic that ended the call, if any, and the
returned pointer. Both statements read a map, which neither panics nor writes,
also when the map is nil. -/
def Room.GetStateEventCall (room : Room) (eventType : EventType) (stateKey : String) :
    Room × Option Panic × Option Event :=
  let stateEventMap : StateEventMap := (room.State.index eventType).getD none
  let evt : Option Event :=
    match stateEventMap with
    | none => none
    | some r => ((room.Maps r).lookup stateKey).getD none
  (room, none, evt)

/-- The pointer `GetStateEvent` returns. -/
def Room.GetStateEvent (room : Room) (eventType : EventType) (stateKey : String) :
    Option Event :=
  (room.GetStateEventCall eventType stateKey).2.2

/-- `func (room Room) GetMembershipState(userID id.UserID) event.Membership`:
the room after the call, the panic that ended the call, if any, and the
returned membership. The event is dereferenced only where it is not nil. -/
def Room.GetMembershipStateCall (room : Room) (userID : String) :
    Room × Option Panic × Membership :=
  let state := MembershipLeave
  let r := room.GetStateEventCall StateMember userID
  match r.2.1 with
  | some p => (r.1, some p, state)
  | none =>
    match r.2.2 with
    | none => (r.1, none, state)
    | some evt =>
      match GoMap.index evt.Content.Raw "membership" with
      | some (Json.str membership) => (r.1, none, membership)
      | _ => (r.1, none, state)

/-- The membership `GetMembershipState` returns. -/
def Room.GetMembershipState (room : Room) (userID : String) : Membership :=
  (room.GetMembershipStateCall userID).2.2

/-- `func NewRoom(roomID id.RoomID) *Room`. -/
def NewRoom (roomID : String) : Room :=
  { ID := roomID, State := some ∅, Maps := fun _ => ∅ }

/-- The rooms reachable from `NewRoom` by a sequence of `UpdateState` calls,
whatever their arguments and whether they return or panic. -/
inductive Reachable : Room → Prop where
  | new (roomID : String) : Reachable (NewRoom roomID)
  | update (room : Room) (evt : Option Event) :
      Reachable room → Reachable (room.UpdateState evt).1

/-- An initialised state map: the map of the room and every map stored in it
is non-nil, as `NewRoom` and `UpdateState` make them. -/
def Room.Initialised (room : Room) : Prop :=
  room.State ≠ none ∧ ∀ t, room.State.index t ≠ some none

/-- No map object is stored under two event types, as in every room made by
`NewRoom` and `UpdateState`. -/
def Room.NoSharing (room : Room) : Prop :=
  ∀ t₁ t₂ r, room.State.index t₁ = some (some r) → room.State.index t₂ = some (some r) →
    t₁ = t₂

/-- Applying a sequence of events in order with `UpdateState`, stopping at the
first call that panics. -/
def Room.applyAll (room : Room) : List Event → Room × Option Panic
  | [] => (room, none)
  | e :: rest =>
    match room.UpdateState (some e) with
    | (room, none) => Room.applyAll room rest
    | (room, some p) => (room, some p)

/-! ## Specification-side definitions -/

/-- The last event of a sequence stored under the pair `(T, K)`. -/
def lastFor (evts : List Event) (T : EventType) (K : String) : Option Event :=
  evts.reverse.find? (fun e => decide (e.Typ = T ∧ e.StateKey = some K))

/-- Sample events used to instantiate the room theorems. -/
def sampleEvent (key : String) (membership : String) : Event :=
  { Typ := StateMember, StateKey := some key,
    Content := { Raw := some (AList.insert "membership" (Json.str membership) ∅) } }

/-- A second state event type used to instantiate the room theorems. -/
def sampleType : EventType := { Name := "m.room.topic", Class := 1 }

/-- A room whose state map holds one map object under two event types, as a
caller of the package can build it:
`m := map[string]*event.Event{}` and
`Room{State: RoomStateMap{event.StateMember: m, T: m}}`. -/
def aliasedRoom : Room :=
  { ID := "!r",
    State := some ((AList.insert StateMember (some 0) ∅).insert sampleType (some 0)),
    Maps := fun _ => ∅ }

/-- The string a JSON value is, if it is one. -/
def Json.asString : Json → Option String
  | .str s => some s
  | _ => none

/-- The value `j` nested inside `n` arrays. -/
def Json.nest : Nat → Json → Json
  | 0, j => j
  | n + 1, j => Json.arr [Json.nest n j]

/-- The value of the last member of an object that binds to the field `f`. -/
def lastMember (f : Field) (members : List (String × Json)) : Option Json :=
  (members.reverse.find? (fun m => decide (fieldOf m.1 = some f))).map Prod.snd

/-- The Go string stored for the last string among the members of an object
that bind to the field `f`. -/
def lastString (f : Field) (members : List (String × Json)) : Option GoString :=
  members.reverse.findSome? (fun m =>
    if fieldOf m.1 = some f then m.2.asString.map GoString.ofString else none)

/-- The text of the last string among the members of an object that bind to
the field `f`. -/
def lastText (f : Field) (members : List (String × Json)) : Option String :=
  members.reverse.findSome? (fun m => if fieldOf m.1 = some f then m.2.asString else none)

/-- Whether a JSON value is `null` or a string: the values a Go string field
accepts. -/
def Json.isNullOrString : Json → Bool
  | .null => true
  | .str _ => true
  | _ => false

/-- A member of an object parses as an envelope member: when it binds to one
of the four string fields it is a JSON string or `null`. -/
def memberParses (m : String × Json) : Bool :=
  match fieldOf m.1 with
  | none => true
  | some .ciphertext => true
  | some _ => m.2.isNullOrString

/-- The envelope fields of an object parse: every member bound to one of the
four string fields is a JSON string or `null`. -/
def FieldsParse (members : List (String × Json)) : Prop :=
  ∀ m ∈ members, memberParses m = true

instance (members : List (String × Json)) : Decidable (FieldsParse members) := by
  unfold FieldsParse
  infer_instance

/-- The outer envelope of an object parses, that is the first `json.Unmarshal`
of `UnmarshalJSON` returns no error: the object is nested no deeper than the
scanner allows and its envelope fields parse. -/
def EnvelopeParses (members : List (String × Json)) : Prop :=
  (Json.obj members).depth ≤ maxNestingDepth ∧ FieldsParse members

instance (members : List (String × Json)) : Decidable (EnvelopeParses members) := by
  unfold EnvelopeParses
  infer_instance

/-- The raw ciphertext sub-buffer an object leaves in a content whose
`Ciphertext` was `cur`: the text of its last `ciphertext` member. -/
def rawCiphertext (members : List (String × Json)) (cur : Bytes) : Bytes :=
  match lastMember .ciphertext members with
  | some j => Bytes.text j
  | none => cur

/-- The content an object leaves when decoded as an envelope into `c`. -/
def envelopeOf (members : List (String × Json)) (c : EncryptedEventContent) :
    EncryptedEventContent :=
  { Algorithm := (lastString .algorithm members).getD c.Algorithm
    SenderKey := (lastString .senderKey members).getD c.SenderKey
    DeviceID := (lastString .deviceID members).getD c.DeviceID
    SessionID := (lastString .sessionID members).getD c.SessionID
    Ciphertext := rawCiphertext members c.Ciphertext
    MegolmCiphertext := c.MegolmCiphertext
    OlmCiphertext := c.OlmCiphertext }

/-- The five members `json.Marshal` writes for the envelope struct. -/
def envelopeMembers (a sk d sid : String) (ct : Json) : List (String × Json) :=
  [("algorithm", Json.str a), ("sender_key", Json.str sk), ("device_id", Json.str d),
   ("session_id", Json.str sid), ("ciphertext", ct)]

/-- The JSON value `json.Marshal` writes for an `OlmCiphertexts` value. -/
def olmJson (m : OlmCiphertexts) : Json :=
  match m with
  | none => Json.null
  | some m => Json.obj (m.entries.map (fun p =>
      (p.1.toValidUTF8,
       Json.obj [("body", Json.str p.2.Body.toValidUTF8), ("type", Json.int p.2.Typ.val)])))

/-- The entry a member of a JSON object decodes to in an `OlmCiphertexts` map. -/
def decodedEntry (m : String × Json) : GoString × OlmEntry :=
  (GoString.ofString m.1, (decodeOlmEntry m.2 OlmEntry.zero).1)

/-- Every Go string of an `OlmCiphertexts` value, key or body, is valid UTF-8. -/
def OlmCiphertexts.IsUTF8 (m : OlmCiphertexts) : Prop :=
  match m with
  | none => True
  | some m => ∀ p ∈ m.entries, p.1.IsUTF8 ∧ p.2.Body.IsUTF8

/-- Every Go string that `MarshalJSON` writes for a content is valid UTF-8. -/
def EncryptedEventContent.IsUTF8 (v : EncryptedEventContent) : Prop :=
  v.SenderKey.IsUTF8 ∧ v.DeviceID.IsUTF8 ∧ v.SessionID.IsUTF8 ∧
  v.MegolmCiphertext.IsUTF8 ∧ OlmCiphertexts.IsUTF8 v.OlmCiphertext

/-- Equality of JSON values: two objects are equal when they have the same
member names and equal values under each name, in whatever order the members
are written. -/
inductive JsonEq : Json → Json → Prop where
  | refl (j : Json) : JsonEq j j
  | arr (xs ys : List Json) :
      xs.length = ys.length →
      (∀ i (h₁ : i < xs.length) (h₂ : i < ys.length), JsonEq (xs.get ⟨i, h₁⟩) (ys.get ⟨i, h₂⟩)) →
      JsonEq (Json.arr xs) (Json.arr ys)
  | obj (ms₁ ms₂ : List (String × Json)) :
      (ms₁.map Prod.fst).Perm (ms₂.map Prod.fst) →
      (∀ k v₁ v₂, (k, v₁) ∈ ms₁ → (k, v₂) ∈ ms₂ → JsonEq v₁ v₂) →
      JsonEq (Json.obj ms₁) (Json.obj ms₂)

/-- The wire shape of one pairwise entry: an object with the two members
`body`, a string, and `type`, an integer in the range of Go's `int`. -/
def IsOlmEntryJson (j : Json) : Prop :=
  ∃ (body : String) (n : Int), minInt ≤ n ∧ n ≤ maxInt ∧
    (j = Json.obj [("body", Json.str body), ("type", Json.int n)] ∨
     j = Json.obj [("type", Json.int n), ("body", Json.str body)])

/-- The wire shape of a pairwise ciphertext: an object with distinct member
names whose values all have the shape of a pairwise entry. -/
def IsOlmCiphertextJson (ct : Json) : Prop :=
  ∃ entries : List (String × Json), ct = Json.obj entries ∧ (entries.map Prod.fst).Nodup ∧
    ∀ p ∈ entries, IsOlmEntryJson p.2

/-- An event is stored for the pair `(T, K)`: the state map refers for `T`
to a map object that holds a non-nil event under `K`. -/
def Room.Stores (room : Room) (T : EventType) (K : String) (e : Event) : Prop :=
  ∃ a r, room.State = some a ∧ a.lookup T = some (some r) ∧
    (room.Maps r).lookup K = some (some e)

/-- A membership event for a user whose content holds the given raw value
under `membership`, or no such key when the value is `none`. -/
def memberEvent (user : String) (membership : Option Json) : Event :=
  { Typ := StateMember, StateKey := some user,
    Content := { Raw := some (match membership with
      | some j => AList.insert "membership" j ∅
      | none => ∅) } }

/-! ## Lemmas on Go strings -/

theorem char_valid (c : Char) : c.toNat < 55296 ∨ (57343 < c.toNat ∧ c.toNat < 1114112) := by
  have := c.valid
  simp only [UInt32.isValidChar, Nat.isValidChar] at this
  exact this

set_option maxRecDepth 8000 in
theorem decodeRune_utf8Char (c : Char) (rest : List Byte) :
    decodeRune (utf8Char c ++ rest) = some (c.toNat, (utf8Char c).length) := by
  have hv := char_valid c
  unfold utf8Char
  by_cases h1 : c.toNat < 128
  · simp only [if_pos h1, List.singleton_append, decodeRune, byte, List.length_singleton]
    rw [if_pos (by omega)]
    congr 2
    omega
  · by_cases h2 : c.toNat < 2048
    · simp only [if_neg h1, if_pos h2, List.cons_append, List.nil_append, decodeRune, byte, isCont,
        List.length_cons, List.length_nil]
      rw [if_neg (by omega), if_pos (by omega), if_pos (by omega)]
      congr 2
      omega
    · by_cases h3 : c.toNat < 65536
      · simp only [if_neg h1, if_neg h2, if_pos h3, List.cons_append, List.nil_append, decodeRune,
          byte, isCont, List.length_cons, List.length_nil]
        rw [if_neg (by omega), if_neg (by omega), if_pos (by omega), if_pos (by omega)]
        congr 2
        omega
      · simp only [if_neg h1, if_neg h2, if_neg h3, List.cons_append, List.nil_append, decodeRune,
          byte, isCont, List.length_cons, List.length_nil]
        rw [if_neg (by omega), if_neg (by omega), if_neg (by omega), if_pos (by omega),
          if_pos (by omega)]
        congr 2
        omega

theorem utf8Char_length_pos (c : Char) : 0 < (utf8Char c).length := by
  unfold utf8Char
  split_ifs <;> simp

theorem coerceAux_utf8 (cs : List Char) :
    ∀ fuel, (utf8 cs).length ≤ fuel → coerceAux fuel (utf8 cs) = cs := by
  induction cs with
  | nil =>
    intro fuel _
    cases fuel <;> simp [utf8, coerceAux, decodeRune]
  | cons c cs ih =>
    intro fuel hfuel
    have hpos := utf8Char_length_pos c
    simp only [utf8, List.length_append] at hfuel
    cases fuel with
    | zero => omega
    | succ fuel =>
      simp only [utf8, coerceAux, decodeRune_utf8Char, List.drop_left, Char.ofNat_toNat]
      rw [ih fuel (by omega)]

/-- Decoding a JSON string and encoding the stored Go string gives the JSON
string back. -/
theorem toValidUTF8_ofString (s : String) : (GoString.ofString s).toValidUTF8 = s := by
  simp only [GoString.toValidUTF8, GoString.ofString]
  rw [coerceAux_utf8 s.data _ (le_refl _)]

theorem ofString_isUTF8 (s : String) : (GoString.ofString s).IsUTF8 := by
  simp only [GoString.IsUTF8, toValidUTF8_ofString]

theorem ofString_injective (s t : String) (h : GoString.ofString s = GoString.ofString t) :
    s = t := by
  have := congrArg GoString.toValidUTF8 h
  rwa [toValidUTF8_ofString, toValidUTF8_ofString] at this

theorem toValidUTF8_injective (g h : GoString) (hg : g.IsUTF8) (hh : h.IsUTF8)
    (heq : g.toValidUTF8 = h.toValidUTF8) : g = h := by
  rw [← hg, ← hh, heq]

theorem decodeRune_nil : decodeRune [] = none := rfl

/-- The steps `json.Marshal` takes over a Go string never outnumber its
bytes: any bound of at least the length gives the same code points. -/
theorem coerceAux_fuel : ∀ (n m : Nat) (l : List Byte), l.length ≤ n → l.length ≤ m →
    coerceAux n l = coerceAux m l := by
  intro n
  induction n with
  | zero =>
    intro m l hn _
    have hl : l = [] := List.length_eq_zero.1 (Nat.le_zero.1 hn)
    subst hl
    cases m <;> rfl
  | succ n ih =>
    intro m l hn hm
    cases m with
    | zero =>
      have hl : l = [] := List.length_eq_zero.1 (Nat.le_zero.1 hm)
      subst hl
      rfl
    | succ m =>
      cases l with
      | nil => rfl
      | cons b rest =>
        simp only [List.length_cons, Nat.add_le_add_iff_right] at hn hm
        simp only [coerceAux]
        cases h : decodeRune (b :: rest) with
        | none =>
          simp only
          rw [ih m rest hn hm]
        | some p =>
          obtain ⟨c, w⟩ := p
          simp only
          have hlen : ((b :: rest).drop w).length ≤ rest.length := by
            cases w with
            | zero =>
              exfalso
              simp only [decodeRune] at h
              split_ifs at h <;> first | simp at h | (split at h <;> simp at h)
            | succ w =>
              simp only [List.drop_succ_cons, List.length_drop]
              omega
          rw [ih m _ (le_trans hlen hn) (le_trans hlen hm)]

/-! ## Lemmas on nesting depth -/

theorem depthMembers_le_iff (n : Nat) (l : List (String × Json)) :
    depthMembers l ≤ n ↔ ∀ m ∈ l, m.2.depth ≤ n := by
  induction l with
  | nil => simp [depthMembers]
  | cons hd tl ih =>
    simp only [depthMembers, max_le_iff, ih, List.mem_cons, forall_eq_or_imp]

theorem depth_obj (members : List (String × Json)) :
    (Json.obj members).depth = depthMembers members + 1 := by
  simp only [Json.depth]

theorem depth_nest (n : Nat) (j : Json) : (Json.nest n j).depth = n + j.depth := by
  induction n with
  | zero => simp [Json.nest]
  | succ n ih =>
    simp only [Json.nest, Json.depth, depthItems, ih]
    omega

theorem depth_lt_of_mem (members : List (String × Json)) (m : String × Json)
    (h : m ∈ members) : m.2.depth < (Json.obj members).depth := by
  rw [depth_obj]
  exact Nat.lt_succ_of_le ((depthMembers_le_iff _ members).1 (le_refl _) m h)

/-- An object with a member nested at least as deep as the limit exceeds it. -/
theorem deep_of_nested_member (members : List (String × Json)) (k : String) (n : Nat) (j : Json)
    (hn : maxNestingDepth ≤ n) (h : (k, Json.nest n j) ∈ members) :
    maxNestingDepth < (Json.obj members).depth := by
  have := depth_lt_of_mem members _ h
  simp only [depth_nest] at this
  omega

theorem lastMember_mem (f : Field) (members : List (String × Json)) (j : Json)
    (h : lastMember f members = some j) : ∃ m ∈ members, m.2 = j := by
  simp only [lastMember, Option.map_eq_some'] at h
  obtain ⟨m, hm, hj⟩ := h
  exact ⟨m, List.mem_reverse.1 (List.mem_of_find?_eq_some hm), hj⟩

/-- A member of an object within the nesting limit is itself within it. -/
theorem lastMember_depth (f : Field) (members : List (String × Json)) (j : Json)
    (hd : (Json.obj members).depth ≤ maxNestingDepth) (h : lastMember f members = some j) :
    ¬ maxNestingDepth < j.depth := by
  obtain ⟨m, hm, hj⟩ := lastMember_mem f members j h
  rw [depth_obj] at hd
  have := (depthMembers_le_iff (depthMembers members) members).1 (le_refl _) m hm
  rw [hj] at this
  omega

/-! ## Lemmas on canonical string maps -/

theorem ext_entries {V : Type} {a b : StrMap V} (h : a.entries = b.entries) : a = b := by
  cases a
  cases b
  simp only [StrMap.mk.injEq]
  exact h

/-! ## Codec: what a JSON object denotes as an envelope -/

theorem lastMember_snoc (f : Field) (l : List (String × Json)) (m : String × Json) :
    lastMember f (l ++ [m]) = if fieldOf m.1 = some f then some m.2 else lastMember f l := by
  simp only [lastMember, List.reverse_append, List.reverse_cons, List.reverse_nil,
    List.nil_append, List.singleton_append, List.find?_cons]
  by_cases h : fieldOf m.1 = some f
  · simp [h]
  · simp [h]

theorem lastString_snoc (f : Field) (l : List (String × Json)) (m : String × Json) :
    lastString f (l ++ [m]) =
      match (if fieldOf m.1 = some f then m.2.asString.map GoString.ofString else none) with
      | some s => some s
      | none => lastString f l := by
  simp only [lastString, List.reverse_append, List.reverse_cons, List.reverse_nil,
    List.nil_append, List.singleton_append, List.findSome?_cons]
  cases (if fieldOf m.1 = some f then m.2.asString.map GoString.ofString else none) <;> rfl

theorem decodeString_fst (goType : String) (j : Json) (cur : GoString) :
    (decodeString goType j cur).1 = (j.asString.map GoString.ofString).getD cur := by
  cases j <;> rfl

theorem decodeString_snd_none (goType : String) (j : Json) (cur : GoString)
    (h : j.isNullOrString = true) : (decodeString goType j cur).2 = none := by
  cases j <;> first | rfl | exact absurd h (by simp [Json.isNullOrString])

theorem envelopeStep_fst (st : EncryptedEventContent × Option JsonError) (l : List (String × Json))
    (m : String × Json) (c : EncryptedEventContent) (h : st.1 = envelopeOf l c) :
    (envelopeStep st m).1 = envelopeOf (l ++ [m]) c := by
  obtain ⟨c1, e1⟩ := st
  simp only at h
  subst h
  simp only [envelopeStep]
  cases hf : fieldOf m.1 with
  | none =>
    simp [envelopeOf, rawCiphertext, lastString_snoc, lastMember_snoc, hf]
  | some f =>
    cases f <;>
      simp only [setEnvelopeField, decodeString_fst, envelopeOf, rawCiphertext, lastString_snoc,
        lastMember_snoc, hf, if_true, if_false, reduceCtorEq, Option.some.injEq] <;>
      cases m.2.asString <;> rfl

theorem envelope_fold_fst (l : List (String × Json)) (c : EncryptedEventContent)
    (e : Option JsonError) :
    (l.foldl envelopeStep (c, e)).1 = envelopeOf l c := by
  induction l using List.reverseRecOn with
  | nil =>
    simp [envelopeOf, rawCiphertext, lastString, lastMember]
  | append_singleton l m ih =>
    rw [List.foldl_append]
    exact envelopeStep_fst _ l m c ih

theorem envelope_fold_snd (l : List (String × Json)) (c : EncryptedEventContent)
    (h : FieldsParse l) : (l.foldl envelopeStep (c, none)).2 = none := by
  induction l using List.reverseRecOn with
  | nil => rfl
  | append_singleton l m ih =>
    rw [List.foldl_append]
    have hl : FieldsParse l := fun x hx => h x (List.mem_append_left _ hx)
    have hm := h m (List.mem_append_right _ (List.mem_singleton_self m))
    simp only [List.foldl_cons, List.foldl_nil, envelopeStep]
    simp only [memberParses] at hm
    cases hf : fieldOf m.1 with
    | none => exact ih hl
    | some f =>
      rw [hf] at hm
      simp only [ih hl, saveError]
      cases f with
      | ciphertext => rfl
      | algorithm => exact decodeString_snd_none _ _ _ hm
      | senderKey => exact decodeString_snd_none _ _ _ hm
      | deviceID => exact decodeString_snd_none _ _ _ hm
      | sessionID => exact decodeString_snd_none _ _ _ hm

/-- The first pass of `UnmarshalJSON` on an object nested deeper than the
scanner allows: a syntax error, and nothing is stored. -/
theorem unmarshalEnvelope_deep (j : Json) (c : EncryptedEventContent)
    (h : maxNestingDepth < j.depth) :
    unmarshalEnvelope (Bytes.text j) c = (c, some JsonError.syntaxError) := by
  simp only [unmarshalEnvelope, if_pos h]

/-- The first pass of `UnmarshalJSON` on an object within the nesting limit
is the decoder's loop over its members. -/
theorem unmarshalEnvelope_shallow (members : List (String × Json)) (c : EncryptedEventContent)
    (h : (Json.obj members).depth ≤ maxNestingDepth) :
    unmarshalEnvelope (Bytes.text (Json.obj members)) c = members.foldl envelopeStep (c, none) := by
  simp only [unmarshalEnvelope, if_neg (not_lt.2 h)]

/-- The first pass of `UnmarshalJSON` on an object whose envelope parses: no
error, and the content the object denotes. -/
theorem unmarshalEnvelope_obj (members : List (String × Json)) (c : EncryptedEventContent)
    (h : EnvelopeParses members) :
    unmarshalEnvelope (Bytes.text (Json.obj members)) c = (envelopeOf members c, none) := by
  have h1 := envelope_fold_fst members c none
  have h2 := envelope_fold_snd members c h.2
  rw [unmarshalEnvelope_shallow members c h.1]
  exact Prod.ext h1 h2

theorem algorithm_tags_differ : AlgorithmMegolmV1 ≠ AlgorithmOlmV1 := by decide

/-- `UnmarshalJSON` on an object whose envelope parses, by the tag it carries. -/
theorem unmarshalJSON_obj (members : List (String × Json)) (c : EncryptedEventContent)
    (h : EnvelopeParses members) :
    c.UnmarshalJSON (Bytes.text (Json.obj members)) =
      if (envelopeOf members c).Algorithm = AlgorithmOlmV1 then
        ({ envelopeOf members c with
            OlmCiphertext :=
              (unmarshalOlmCiphertexts (envelopeOf members c).Ciphertext (some StrMap.empty)).1 },
          (unmarshalOlmCiphertexts (envelopeOf members c).Ciphertext (some StrMap.empty)).2)
      else if (envelopeOf members c).Algorithm = AlgorithmMegolmV1 then
        ({ envelopeOf members c with
            MegolmCiphertext :=
              (unmarshalString (envelopeOf members c).Ciphertext c.MegolmCiphertext).1 },
          (unmarshalString (envelopeOf members c).Ciphertext c.MegolmCiphertext).2)
      else (envelopeOf members c, none) := by
  simp only [EncryptedEventContent.UnmarshalJSON, unmarshalEnvelope_obj members c h]
  rfl

theorem lastString_of_lastMember (f : Field) (s : String) :
    ∀ (l : List (String × Json)), lastMember f l = some (Json.str s) →
      lastString f l = some (GoString.ofString s) := by
  intro l
  induction l using List.reverseRecOn with
  | nil =>
    intro h
    simp [lastMember] at h
  | append_singleton l m ih =>
    intro h
    rw [lastMember_snoc] at h
    rw [lastString_snoc]
    by_cases hf : fieldOf m.1 = some f
    · rw [if_pos hf] at h
      rw [if_pos hf, Option.some.inj h]
      rfl
    · rw [if_neg hf] at h
      rw [if_neg hf]
      exact ih h

/-! ## Codec: decoding properties of the specification -/

theorem unmarshalString_scalar (j : Json) (cur : GoString) (h : j.depth = 0) :
    unmarshalString (Bytes.text j) cur = decodeString "string" j cur := by
  simp only [unmarshalString, h, maxNestingDepth]
  rfl

/-- A buffer nested deeper than the scanner allows is rejected by the first
`json.Unmarshal` of `UnmarshalJSON`, which stores nothing. -/
theorem unmarshalJSON_deep (j : Json) (c : EncryptedEventContent)
    (h : maxNestingDepth < j.depth) :
    c.UnmarshalJSON (Bytes.text j) = (c, some JsonError.syntaxError) := by
  simp only [EncryptedEventContent.UnmarshalJSON, unmarshalEnvelope_deep _ _ h]

/-- C5, counterexample: an object whose envelope fields parse, whose
algorithm string is neither known tag and whose `ciphertext` member is `null`
inside 10000 arrays. The object is nested 10001 deep, so the first
`json.Unmarshal` returns a syntax error and stores nothing: `UnmarshalJSON`
fails and keeps neither the tag nor the ciphertext. -/
theorem unknown_algorithm_deep_ciphertext_rejected :
    FieldsParse [("algorithm", Json.str "org.example.future.v2"),
      ("ciphertext", Json.nest 10000 Json.null)] ∧
    (lastString .algorithm [("algorithm", Json.str "org.example.future.v2"),
      ("ciphertext", Json.nest 10000 Json.null)]).getD [] ≠ AlgorithmOlmV1 ∧
    (lastString .algorithm [("algorithm", Json.str "org.example.future.v2"),
      ("ciphertext", Json.nest 10000 Json.null)]).getD [] ≠ AlgorithmMegolmV1 ∧
    EncryptedEventContent.zero.UnmarshalJSON (Bytes.text (Json.obj
      [("algorithm", Json.str "org.example.future.v2"),
       ("ciphertext", Json.nest 10000 Json.null)])) =
      (EncryptedEventContent.zero, some JsonError.syntaxError) :=
  ⟨by decide, by decide, by decide,
   unmarshalJSON_deep _ _ (deep_of_nested_member _ "ciphertext" 10000 Json.null (by decide)
     (List.mem_cons_of_mem _ (List.mem_cons_self _ _)))⟩

/-- C5, amended (unknown-algorithm tolerance): for a JSON object nested no
deeper than the scanner allows, whose envelope fields parse and whose algorithm
string is neither of the two known tags, whatever its `ciphertext` member is
(any JSON value, or missing), `UnmarshalJSON` into a fresh value returns no
error, keeps the tag as `Algorithm`, retains the raw ciphertext sub-buffer in
`Ciphertext` (nil when the member is missing) and leaves `MegolmCiphertext`
empty and `OlmCiphertext` nil. -/
theorem unknown_algorithm_tolerance (members : List (String × Json))
    (hparse : EnvelopeParses members)
    (holm : (lastString .algorithm members).getD [] ≠ AlgorithmOlmV1)
    (hmegolm : (lastString .algorithm members).getD [] ≠ AlgorithmMegolmV1) :
    (EncryptedEventContent.zero.UnmarshalJSON (Bytes.text (Json.obj members))).2 = none ∧
    (EncryptedEventContent.zero.UnmarshalJSON (Bytes.text (Json.obj members))).1.Algorithm =
      (lastString .algorithm members).getD [] ∧
    (EncryptedEventContent.zero.UnmarshalJSON (Bytes.text (Json.obj members))).1.Ciphertext =
      (match lastMember .ciphertext members with
       | some j => Bytes.text j
       | none => Bytes.nil) ∧
    (EncryptedEventContent.zero.UnmarshalJSON (Bytes.text (Json.obj members))).1.MegolmCiphertext = [] ∧
    (EncryptedEventContent.zero.UnmarshalJSON (Bytes.text (Json.obj members))).1.OlmCiphertext = none := by
  have h1 : (envelopeOf members EncryptedEventContent.zero).Algorithm ≠ AlgorithmOlmV1 := holm
  have h2 : (envelopeOf members EncryptedEventContent.zero).Algorithm ≠ AlgorithmMegolmV1 := hmegolm
  rw [unmarshalJSON_obj members _ hparse, if_neg h1, if_neg h2]
  exact ⟨rfl, rfl, rfl, rfl, rfl⟩

theorem unknown_algorithm_tolerance_witness :
    (EncryptedEventContent.zero.UnmarshalJSON (Bytes.text (Json.obj
      [("algorithm", Json.str "org.example.future.v2"), ("sender_key", Json.str "abc"),
       ("ciphertext", Json.arr [Json.int 1, Json.null])]))).2 = none ∧
    (EncryptedEventContent.zero.UnmarshalJSON (Bytes.text (Json.obj
      [("algorithm", Json.str "org.example.future.v2"), ("sender_key", Json.str "abc"),
       ("ciphertext", Json.arr [Json.int 1, Json.null])]))).1.Algorithm =
      GoString.ofString "org.example.future.v2" ∧
    (EncryptedEventContent.zero.UnmarshalJSON (Bytes.text (Json.obj
      [("algorithm", Json.str "org.example.future.v2"), ("sender_key", Json.str "abc"),
       ("ciphertext", Json.arr [Json.int 1, Json.null])]))).1.Ciphertext =
      Bytes.text (Json.arr [Json.int 1, Json.null]) ∧
    (EncryptedEventContent.zero.UnmarshalJSON (Bytes.text (Json.obj
      [("algorithm", Json.str "org.example.future.v2"), ("sender_key", Json.str "abc"),
       ("ciphertext", Json.arr [Json.int 1, Json.null])]))).1.MegolmCiphertext = [] ∧
    (EncryptedEventContent.zero.UnmarshalJSON (Bytes.text (Json.obj
      [("algorithm", Json.str "org.example.future.v2"), ("sender_key", Json.str "abc"),
       ("ciphertext", Json.arr [Json.int 1, Json.null])]))).1.OlmCiphertext = none :=
  unknown_algorithm_tolerance
    [("algorithm", Json.str "org.example.future.v2"), ("sender_key", Json.str "abc"),
     ("ciphertext", Json.arr [Json.int 1, Json.null])]
    (by decide) (by decide) (by decide)

/-- C6 (shape mismatch rejection): `UnmarshalJSON` returns an error for
every payload whose algorithm is the group-session tag and whose `ciphertext`
member is a JSON object, and for every payload whose algorithm is the pairwise
tag and whose `ciphertext` member is a JSON string. -/
theorem shape_mismatch_rejected (members : List (String × Json))
    (h : (lastString .algorithm members = some AlgorithmMegolmV1 ∧
            ∃ ms, lastMember .ciphertext members = some (Json.obj ms)) ∨
         (lastString .algorithm members = some AlgorithmOlmV1 ∧
            ∃ s, lastMember .ciphertext members = some (Json.str s))) :
    (EncryptedEventContent.zero.UnmarshalJSON (Bytes.text (Json.obj members))).2 ≠ none := by
  by_cases hdeep : maxNestingDepth < (Json.obj members).depth
  · simp [EncryptedEventContent.UnmarshalJSON, unmarshalEnvelope_deep _ _ hdeep]
  · have hfst := envelope_fold_fst members EncryptedEventContent.zero none
    simp only [EncryptedEventContent.UnmarshalJSON,
      unmarshalEnvelope_shallow members _ (not_lt.1 hdeep)]
    generalize members.foldl envelopeStep (EncryptedEventContent.zero, none) = r at hfst
    obtain ⟨c, err⟩ := r
    simp only at hfst
    subst hfst
    cases err with
    | some e => simp
    | none =>
      rcases h with ⟨htag, ms, hct⟩ | ⟨htag, t, hct⟩
      · have halg : (envelopeOf members EncryptedEventContent.zero).Algorithm
            = AlgorithmMegolmV1 := by
          simp [envelopeOf, htag]
        have hraw : (envelopeOf members EncryptedEventContent.zero).Ciphertext
            = Bytes.text (Json.obj ms) := by
          simp [envelopeOf, rawCiphertext, hct]
        simp only [halg, if_neg algorithm_tags_differ, if_true, hraw, unmarshalString,
          decodeString]
        split_ifs <;> simp
      · have halg : (envelopeOf members EncryptedEventContent.zero).Algorithm = AlgorithmOlmV1 := by
          simp [envelopeOf, htag]
        have hraw : (envelopeOf members EncryptedEventContent.zero).Ciphertext
            = Bytes.text (Json.str t) := by
          simp [envelopeOf, rawCiphertext, hct]
        simp only [halg, if_true, hraw, unmarshalOlmCiphertexts]
        split_ifs <;> simp

theorem shape_mismatch_rejected_witness :
    (EncryptedEventContent.zero.UnmarshalJSON (Bytes.text (Json.obj
      [("algorithm", Json.str "m.megolm.v1.aes-sha2"), ("sender_key", Json.str "abc"),
       ("ciphertext", Json.obj [("k", Json.obj [("body", Json.str "x"), ("type", Json.int 0)])])]))).2
      ≠ none ∧
    (EncryptedEventContent.zero.UnmarshalJSON (Bytes.text (Json.obj
      [("algorithm", Json.str "m.olm.v1.curve25519-aes-sha2"), ("sender_key", Json.str "abc"),
       ("ciphertext", Json.str "opaqueblob")]))).2 ≠ none :=
  ⟨shape_mismatch_rejected _ (Or.inl ⟨by decide, _, rfl⟩),
   shape_mismatch_rejected _ (Or.inr ⟨by decide, _, rfl⟩)⟩

/-- C7, counterexample: a group-session payload whose envelope parses and
whose `ciphertext` member is `null`, which is not a JSON string, is accepted:
`json.Unmarshal` of `null` into a Go string has no effect and returns no error. -/
theorem megolm_null_ciphertext_accepted :
    EnvelopeParses [("algorithm", Json.str "m.megolm.v1.aes-sha2"), ("ciphertext", Json.null)] ∧
    lastString .algorithm
      [("algorithm", Json.str "m.megolm.v1.aes-sha2"), ("ciphertext", Json.null)]
      = some AlgorithmMegolmV1 ∧
    lastMember .ciphertext
      [("algorithm", Json.str "m.megolm.v1.aes-sha2"), ("ciphertext", Json.null)]
      = some Json.null ∧
    Json.null.asString = none ∧
    (EncryptedEventContent.zero.UnmarshalJSON (Bytes.text (Json.obj
      [("algorithm", Json.str "m.megolm.v1.aes-sha2"), ("ciphertext", Json.null)]))).2 = none ∧
    (EncryptedEventContent.zero.UnmarshalJSON (Bytes.text (Json.obj
      [("algorithm", Json.str "m.megolm.v1.aes-sha2"), ("ciphertext", Json.null)]))).1.MegolmCiphertext
      = [] :=
  ⟨by decide, by decide, rfl, rfl, by decide, by decide⟩

/-- C7, amended: for a payload whose envelope parses and whose algorithm is
the group-session tag, `UnmarshalJSON` returns exactly the error of
`json.Unmarshal` of the ciphertext sub-buffer into the string; that is an error
when the `ciphertext` member is missing or is a number, a boolean, an array or
an object, and no error when it is `null`, which leaves `MegolmCiphertext` empty. -/
theorem megolm_ciphertext_not_string (members : List (String × Json))
    (hparse : EnvelopeParses members)
    (htag : lastString .algorithm members = some AlgorithmMegolmV1) :
    (EncryptedEventContent.zero.UnmarshalJSON (Bytes.text (Json.obj members))).2 =
      (unmarshalString (rawCiphertext members Bytes.nil) []).2 ∧
    ((∀ j, lastMember .ciphertext members = some j → j.isNullOrString = false) →
      (EncryptedEventContent.zero.UnmarshalJSON (Bytes.text (Json.obj members))).2 ≠ none) ∧
    (lastMember .ciphertext members = some Json.null →
      (EncryptedEventContent.zero.UnmarshalJSON (Bytes.text (Json.obj members))).2 = none ∧
      (EncryptedEventContent.zero.UnmarshalJSON (Bytes.text (Json.obj members))).1.MegolmCiphertext
        = []) := by
  have halg : (envelopeOf members EncryptedEventContent.zero).Algorithm = AlgorithmMegolmV1 := by
    simp [envelopeOf, htag]
  rw [unmarshalJSON_obj members _ hparse, if_neg (by rw [halg]; exact algorithm_tags_differ),
    if_pos halg]
  refine ⟨rfl, ?_, ?_⟩
  · intro hshape
    simp only [envelopeOf, rawCiphertext]
    cases hct : lastMember .ciphertext members with
    | none => simp [unmarshalString, EncryptedEventContent.zero]
    | some j =>
      have hj := hshape j hct
      simp only [unmarshalString]
      split_ifs
      · simp
      · cases j <;> simp [decodeString, Json.isNullOrString] at hj ⊢
  · intro hnull
    simp only [envelopeOf, rawCiphertext, hnull, unmarshalString_scalar Json.null _ rfl,
      decodeString, EncryptedEventContent.zero]
    simp

theorem megolm_ciphertext_not_string_witness :
    (EncryptedEventContent.zero.UnmarshalJSON (Bytes.text (Json.obj
      [("algorithm", Json.str "m.megolm.v1.aes-sha2"), ("ciphertext", Json.int 7)]))).2 =
      some (JsonError.unmarshalTypeError JsonKind.number "string") ∧
    ((∀ j, lastMember .ciphertext
        [("algorithm", Json.str "m.megolm.v1.aes-sha2"), ("ciphertext", Json.int 7)] = some j →
        j.isNullOrString = false) →
      (EncryptedEventContent.zero.UnmarshalJSON (Bytes.text (Json.obj
        [("algorithm", Json.str "m.megolm.v1.aes-sha2"), ("ciphertext", Json.int 7)]))).2
        ≠ none) ∧
    (lastMember .ciphertext
        [("algorithm", Json.str "m.megolm.v1.aes-sha2"), ("ciphertext", Json.int 7)]
        = some Json.null →
      (EncryptedEventContent.zero.UnmarshalJSON (Bytes.text (Json.obj
        [("algorithm", Json.str "m.megolm.v1.aes-sha2"), ("ciphertext", Json.int 7)]))).2 = none ∧
      (EncryptedEventContent.zero.UnmarshalJSON (Bytes.text (Json.obj
        [("algorithm", Json.str "m.megolm.v1.aes-sha2"),
         ("ciphertext", Json.int 7)]))).1.MegolmCiphertext = []) :=
  megolm_ciphertext_not_string
    [("algorithm", Json.str "m.megolm.v1.aes-sha2"), ("ciphertext", Json.int 7)]
    (by decide) (by decide)

/-- C8 (group-session decode result): for a JSON object whose envelope
parses, with algorithm `m.megolm.v1.aes-sha2`, string members `sender_key`,
`device_id`, `session_id` and a string `ciphertext` member `s`, `UnmarshalJSON`
into a fresh value returns no error and yields that algorithm, those three
strings, and `MegolmCiphertext = s`; `OlmCiphertext` stays nil. -/
theorem megolm_decode_result (members : List (String × Json)) (sk d sid s : String)
    (hparse : EnvelopeParses members)
    (halg : lastMember .algorithm members = some (Json.str "m.megolm.v1.aes-sha2"))
    (hsk : lastMember .senderKey members = some (Json.str sk))
    (hd : lastMember .deviceID members = some (Json.str d))
    (hsid : lastMember .sessionID members = some (Json.str sid))
    (hct : lastMember .ciphertext members = some (Json.str s)) :
    EncryptedEventContent.zero.UnmarshalJSON (Bytes.text (Json.obj members)) =
      ({ Algorithm := AlgorithmMegolmV1, SenderKey := GoString.ofString sk,
         DeviceID := GoString.ofString d, SessionID := GoString.ofString sid,
         Ciphertext := Bytes.text (Json.str s), MegolmCiphertext := GoString.ofString s,
         OlmCiphertext := none },
       none) := by
  have henv : envelopeOf members EncryptedEventContent.zero =
      { Algorithm := AlgorithmMegolmV1, SenderKey := GoString.ofString sk,
        DeviceID := GoString.ofString d, SessionID := GoString.ofString sid,
        Ciphertext := Bytes.text (Json.str s), MegolmCiphertext := [],
        OlmCiphertext := none } := by
    simp only [envelopeOf, rawCiphertext, lastString_of_lastMember _ _ _ halg,
      lastString_of_lastMember _ _ _ hsk, lastString_of_lastMember _ _ _ hd,
      lastString_of_lastMember _ _ _ hsid, hct, Option.getD_some]
    rfl
  rw [unmarshalJSON_obj members _ hparse, henv]
  simp only [if_neg algorithm_tags_differ, if_true, unmarshalString_scalar (Json.str s) _ rfl,
    decodeString]

theorem megolm_decode_result_witness :
    EncryptedEventContent.zero.UnmarshalJSON (Bytes.text (Json.obj
      [("algorithm", Json.str "m.megolm.v1.aes-sha2"), ("sender_key", Json.str "abc"),
       ("device_id", Json.str "DEV1"), ("session_id", Json.str "sess1"),
       ("ciphertext", Json.str "opaqueblob")])) =
      ({ Algorithm := AlgorithmMegolmV1, SenderKey := GoString.ofString "abc",
         DeviceID := GoString.ofString "DEV1", SessionID := GoString.ofString "sess1",
         Ciphertext := Bytes.text (Json.str "opaqueblob"),
         MegolmCiphertext := GoString.ofString "opaqueblob", OlmCiphertext := none }, none) :=
  megolm_decode_result
    [("algorithm", Json.str "m.megolm.v1.aes-sha2"), ("sender_key", Json.str "abc"),
     ("device_id", Json.str "DEV1"), ("session_id", Json.str "sess1"),
     ("ciphertext", Json.str "opaqueblob")] "abc" "DEV1" "sess1" "opaqueblob"
    (by decide) rfl rfl rfl rfl rfl

/-! ## Codec: encoding lemmas -/

theorem fieldOf_algorithm : fieldOf "algorithm" = some Field.algorithm := by decide

theorem fieldOf_sender_key : fieldOf "sender_key" = some Field.senderKey := by decide

theorem fieldOf_device_id : fieldOf "device_id" = some Field.deviceID := by decide

theorem fieldOf_session_id : fieldOf "session_id" = some Field.sessionID := by decide

theorem fieldOf_ciphertext : fieldOf "ciphertext" = some Field.ciphertext := by decide

theorem olmFieldOf_body : olmFieldOf "body" = some OlmField.body := by decide

theorem olmFieldOf_type : olmFieldOf "type" = some OlmField.typ := by decide

theorem lastString_eq_map (f : Field) (members : List (String × Json)) :
    lastString f members = (lastText f members).map GoString.ofString := by
  simp only [lastString, lastText]
  induction members.reverse with
  | nil => rfl
  | cons m l ih =>
    simp only [List.findSome?_cons]
    by_cases hf : fieldOf m.1 = some f
    · simp only [if_pos hf]
      cases m.2.asString with
      | none => simpa using ih
      | some t => rfl
    · simpa only [if_neg hf] using ih

/-- What `json.Marshal` writes for a decoded string field is the text that
was read. -/
theorem lastString_toValidUTF8 (f : Field) (members : List (String × Json)) :
    ((lastString f members).getD []).toValidUTF8 = (lastText f members).getD "" := by
  rw [lastString_eq_map]
  cases lastText f members with
  | none => rfl
  | some t => exact toValidUTF8_ofString t

theorem marshalOlmCiphertexts_eq (m : OlmCiphertexts) : marshalOlmCiphertexts m = .ok (olmJson m) := by
  cases m <;> rfl

/-- The serialisation of an `OlmCiphertexts` value nests at most two deep. -/
theorem olmJson_depth_le (m : OlmCiphertexts) : (olmJson m).depth ≤ 2 := by
  cases m with
  | none => simp [olmJson, Json.depth]
  | some m =>
    simp only [olmJson, depth_obj]
    have h : depthMembers (m.entries.map (fun p =>
        (p.1.toValidUTF8,
         Json.obj [("body", Json.str p.2.Body.toValidUTF8), ("type", Json.int p.2.Typ.val)])))
        ≤ 1 := by
      rw [depthMembers_le_iff]
      intro p hp
      simp only [List.mem_map] at hp
      obtain ⟨q, _, rfl⟩ := hp
      simp [Json.depth, depthMembers]
    omega

theorem olmJson_depth (m : OlmCiphertexts) : ¬ maxNestingDepth < (olmJson m).depth := by
  have := olmJson_depth_le m
  simp only [maxNestingDepth]
  omega

theorem marshalRawMessage_text (j : Json) (h : j.depth ≤ maxNestingDepth) :
    marshalRawMessage (Bytes.text j) = .ok j := by
  simp only [marshalRawMessage, if_neg (not_lt.2 h)]

theorem marshalRawMessage_deep (j : Json) (h : maxNestingDepth < j.depth) :
    marshalRawMessage (Bytes.text j) = .error JsonError.marshalerError := by
  simp only [marshalRawMessage, if_pos h]

/-- `MarshalJSON` under the pairwise tag. -/
theorem marshalJSON_olm (v : EncryptedEventContent) (h : v.Algorithm = AlgorithmOlmV1) :
    v.MarshalJSON =
      ({ v with Ciphertext := Bytes.text (olmJson v.OlmCiphertext) },
       .ok (Bytes.text (Json.obj (envelopeMembers v.Algorithm.toValidUTF8
          v.SenderKey.toValidUTF8 v.DeviceID.toValidUTF8 v.SessionID.toValidUTF8
          (olmJson v.OlmCiphertext))))) := by
  simp only [EncryptedEventContent.MarshalJSON, h, if_true, marshalOlmCiphertexts_eq,
    marshalEnvelope, marshalRawMessage, envelopeMembers, if_neg (olmJson_depth _)]

/-- `MarshalJSON` under the group-session tag. -/
theorem marshalJSON_megolm (v : EncryptedEventContent) (h : v.Algorithm = AlgorithmMegolmV1) :
    v.MarshalJSON =
      ({ v with Ciphertext := Bytes.text (Json.str v.MegolmCiphertext.toValidUTF8) },
       .ok (Bytes.text (Json.obj (envelopeMembers v.Algorithm.toValidUTF8
          v.SenderKey.toValidUTF8 v.DeviceID.toValidUTF8 v.SessionID.toValidUTF8
          (Json.str v.MegolmCiphertext.toValidUTF8))))) := by
  have hd : ¬ maxNestingDepth < (Json.str v.MegolmCiphertext.toValidUTF8).depth := by
    simp [Json.depth]
  simp only [EncryptedEventContent.MarshalJSON, h, if_neg algorithm_tags_differ, if_true,
    marshalString, marshalEnvelope, marshalRawMessage, envelopeMembers, if_neg hd]

/-- `MarshalJSON` under any other tag: the raw `Ciphertext` is what is written. -/
theorem marshalJSON_other (v : EncryptedEventContent) (h1 : v.Algorithm ≠ AlgorithmOlmV1)
    (h2 : v.Algorithm ≠ AlgorithmMegolmV1) :
    v.MarshalJSON =
      (v, match marshalRawMessage v.Ciphertext with
          | .ok ct => .ok (Bytes.text (Json.obj
              (envelopeMembers v.Algorithm.toValidUTF8 v.SenderKey.toValidUTF8
                v.DeviceID.toValidUTF8 v.SessionID.toValidUTF8 ct)))
          | .error e => .error e) := by
  simp only [EncryptedEventContent.MarshalJSON, if_neg h1, if_neg h2, marshalEnvelope,
    envelopeMembers]
  cases marshalRawMessage v.Ciphertext <;> rfl

/-- Under a tag that is neither known tag, a raw `Ciphertext` nested deeper
than the encoder's compaction allows makes `MarshalJSON` fail. -/
theorem marshalJSON_other_deep (v : EncryptedEventContent) (j : Json)
    (h1 : v.Algorithm ≠ AlgorithmOlmV1) (h2 : v.Algorithm ≠ AlgorithmMegolmV1)
    (hc : v.Ciphertext = Bytes.text j) (hd : maxNestingDepth < j.depth) :
    v.MarshalJSON.2 = .error JsonError.marshalerError := by
  rw [marshalJSON_other v h1 h2, hc, marshalRawMessage_deep j hd]

/-! ## Codec: encoding properties of the specification -/

/-- C10, counterexample: four contents for which `MarshalJSON` does not
return the object the claim describes. Under an unrecognised tag a raw
`Ciphertext` that is not JSON, and one that is JSON nested 10001 deep, make it
return an error and no object; under the pairwise tag a nil `OlmCiphertext` is
written as `null`, not as a JSON object; under the group-session tag a
`MegolmCiphertext` holding the single byte 0xFF is written as the string
U+FFFD, whose bytes are not those of `MegolmCiphertext`. -/
theorem marshal_not_always_an_object :
    ({ EncryptedEventContent.zero with
        Algorithm := GoString.ofString "org.example.future.v2",
        Ciphertext := Bytes.malformed }.MarshalJSON).2
      = .error JsonError.marshalerError ∧
    ({ EncryptedEventContent.zero with
        Algorithm := GoString.ofString "org.example.future.v2",
        Ciphertext := Bytes.text (Json.nest 10001 Json.null) }.MarshalJSON).2
      = .error JsonError.marshalerError ∧
    ({ EncryptedEventContent.zero with Algorithm := AlgorithmOlmV1 }.MarshalJSON).2
      = .ok (Bytes.text (Json.obj
          [("algorithm", Json.str "m.olm.v1.curve25519-aes-sha2"), ("sender_key", Json.str ""),
           ("device_id", Json.str ""), ("session_id", Json.str ""),
           ("ciphertext", Json.null)])) ∧
    ({ EncryptedEventContent.zero with
        Algorithm := AlgorithmMegolmV1, MegolmCiphertext := [byte 255] }.MarshalJSON).2
      = .ok (Bytes.text (Json.obj
          [("algorithm", Json.str "m.megolm.v1.aes-sha2"), ("sender_key", Json.str ""),
           ("device_id", Json.str ""), ("session_id", Json.str ""),
           ("ciphertext", Json.str (String.mk [Char.ofNat 65533]))])) ∧
    GoString.ofString (String.mk [Char.ofNat 65533]) ≠ [byte 255] := by
  refine ⟨rfl, ?_, ?_, ?_, by decide⟩
  · exact marshalJSON_other_deep _ (Json.nest 10001 Json.null) (by decide) (by decide) rfl
      (by rw [depth_nest]; simp only [maxNestingDepth]; omega)
  · rw [marshalJSON_olm _ rfl]
    simp only [envelopeMembers, EncryptedEventContent.zero, AlgorithmOlmV1,
      toValidUTF8_ofString]
    rfl
  · rw [marshalJSON_megolm _ rfl]
    simp only [envelopeMembers, EncryptedEventContent.zero, AlgorithmMegolmV1,
      toValidUTF8_ofString]
    rfl

/-- C10, amended (encode selects the payload by the tag): for every content
whose `Algorithm` is one of the two known tags, or whose raw `Ciphertext` is nil
or well-formed JSON nested no deeper than 10000 levels, `MarshalJSON` returns a
JSON object with exactly the members `algorithm`, `sender_key`, `device_id`,
`session_id`, `ciphertext`, every Go string written with U+FFFD in place of
each byte that is not valid UTF-8; `ciphertext` is the JSON string of
`MegolmCiphertext` so coerced under the group-session tag and the
serialisation of `OlmCiphertext` under the pairwise tag (`null` for a nil map,
otherwise the object of its entries, each as `body` and `type`), whatever the
raw `Ciphertext` and the payload field not selected held. -/
theorem marshal_selects_payload (v : EncryptedEventContent)
    (h : v.Algorithm = AlgorithmMegolmV1 ∨ v.Algorithm = AlgorithmOlmV1 ∨
         v.Ciphertext = Bytes.nil ∨
         ∃ j, v.Ciphertext = Bytes.text j ∧ j.depth ≤ maxNestingDepth) :
    ∃ ct, v.MarshalJSON.2 = .ok (Bytes.text (Json.obj
        [("algorithm", Json.str v.Algorithm.toValidUTF8),
         ("sender_key", Json.str v.SenderKey.toValidUTF8),
         ("device_id", Json.str v.DeviceID.toValidUTF8),
         ("session_id", Json.str v.SessionID.toValidUTF8),
         ("ciphertext", ct)])) ∧
      (v.Algorithm = AlgorithmMegolmV1 → ct = Json.str v.MegolmCiphertext.toValidUTF8) ∧
      (v.Algorithm = AlgorithmOlmV1 → ct = olmJson v.OlmCiphertext) := by
  by_cases hm : v.Algorithm = AlgorithmMegolmV1
  · refine ⟨Json.str v.MegolmCiphertext.toValidUTF8, ?_, fun _ => rfl, ?_⟩
    · rw [marshalJSON_megolm v hm]
      rfl
    · intro ho
      rw [hm] at ho
      exact absurd ho algorithm_tags_differ
  · by_cases ho : v.Algorithm = AlgorithmOlmV1
    · refine ⟨olmJson v.OlmCiphertext, ?_, fun hm2 => absurd hm2 hm, fun _ => rfl⟩
      rw [marshalJSON_olm v ho]
      rfl
    · rw [marshalJSON_other v ho hm]
      rcases h with h | h | h | ⟨j, hj, hd⟩
      · exact absurd h hm
      · exact absurd h ho
      · rw [h]
        exact ⟨Json.null, rfl, fun hm2 => absurd hm2 hm, fun ho2 => absurd ho2 ho⟩
      · rw [hj, marshalRawMessage_text j hd]
        exact ⟨j, rfl, fun hm2 => absurd hm2 hm, fun ho2 => absurd ho2 ho⟩

theorem marshal_selects_payload_witness :
    ∃ ct, ({ Algorithm := AlgorithmMegolmV1, SenderKey := GoString.ofString "abc",
             DeviceID := GoString.ofString "DEV1", SessionID := GoString.ofString "sess1",
             Ciphertext := Bytes.malformed,
             MegolmCiphertext := [byte 255, byte 98],
             OlmCiphertext := some StrMap.empty } : EncryptedEventContent).MarshalJSON.2 =
        .ok (Bytes.text (Json.obj
          [("algorithm", Json.str AlgorithmMegolmV1.toValidUTF8),
           ("sender_key", Json.str (GoString.ofString "abc").toValidUTF8),
           ("device_id", Json.str (GoString.ofString "DEV1").toValidUTF8),
           ("session_id", Json.str (GoString.ofString "sess1").toValidUTF8),
           ("ciphertext", ct)])) ∧
      (AlgorithmMegolmV1 = AlgorithmMegolmV1 →
        ct = Json.str (GoString.toValidUTF8 [byte 255, byte 98])) ∧
      (AlgorithmMegolmV1 = AlgorithmOlmV1 → ct = olmJson (some StrMap.empty)) :=
  marshal_selects_payload
    { Algorithm := AlgorithmMegolmV1, SenderKey := GoString.ofString "abc",
      DeviceID := GoString.ofString "DEV1", SessionID := GoString.ofString "sess1",
      Ciphertext := Bytes.malformed, MegolmCiphertext := [byte 255, byte 98],
      OlmCiphertext := some StrMap.empty } (Or.inl rfl)

/-! ## Codec: unknown tags, purity and exclusivity of the payloads -/

/-- C11, counterexample: a payload whose envelope fields parse, whose tag is
neither known tag and whose `ciphertext` member is `null` inside 10000 arrays.
The payload is nested 10001 deep, so `UnmarshalJSON` returns a syntax error and
retains nothing: the decoded value cannot re-emit the member. -/
theorem opaque_deep_ciphertext_dropped :
    FieldsParse [("algorithm", Json.str "org.example.future.v2"),
      ("ciphertext", Json.nest 10000 Json.null)] ∧
    (lastString .algorithm [("algorithm", Json.str "org.example.future.v2"),
      ("ciphertext", Json.nest 10000 Json.null)]).getD [] ≠ AlgorithmOlmV1 ∧
    (lastString .algorithm [("algorithm", Json.str "org.example.future.v2"),
      ("ciphertext", Json.nest 10000 Json.null)]).getD [] ≠ AlgorithmMegolmV1 ∧
    lastMember .ciphertext [("algorithm", Json.str "org.example.future.v2"),
      ("ciphertext", Json.nest 10000 Json.null)] = some (Json.nest 10000 Json.null) ∧
    (EncryptedEventContent.zero.UnmarshalJSON (Bytes.text (Json.obj
      [("algorithm", Json.str "org.example.future.v2"),
       ("ciphertext", Json.nest 10000 Json.null)]))).2 = some JsonError.syntaxError ∧
    (EncryptedEventContent.zero.UnmarshalJSON (Bytes.text (Json.obj
      [("algorithm", Json.str "org.example.future.v2"),
       ("ciphertext", Json.nest 10000 Json.null)]))).1.Ciphertext = Bytes.nil :=
  ⟨by decide, by decide, by decide, rfl,
   congrArg Prod.snd (unmarshalJSON_deep _ _
     (deep_of_nested_member _ "ciphertext" 10000 Json.null (by decide)
       (List.mem_cons_of_mem _ (List.mem_cons_self _ _)))),
   congrArg (fun r => r.1.Ciphertext) (unmarshalJSON_deep _ _
     (deep_of_nested_member _ "ciphertext" 10000 Json.null (by decide)
       (List.mem_cons_of_mem _ (List.mem_cons_self _ _))))⟩

/-- C11, amended (opaque ciphertext is not dropped): for a payload nested no
deeper than 10000 levels whose envelope fields parse, whose algorithm tag is
neither known tag and whose `ciphertext` member is any JSON value `c`,
`UnmarshalJSON` into a fresh value returns no error, and `MarshalJSON` of the
decoded value returns an object whose `algorithm` member is the same tag and
whose `ciphertext` member is `c` itself: the retained raw sub-buffer is
written, not a payload field. -/
theorem opaque_ciphertext_reemitted (members : List (String × Json)) (c : Json)
    (hparse : EnvelopeParses members)
    (holm : (lastString .algorithm members).getD [] ≠ AlgorithmOlmV1)
    (hmegolm : (lastString .algorithm members).getD [] ≠ AlgorithmMegolmV1)
    (hct : lastMember .ciphertext members = some c) :
    (EncryptedEventContent.zero.UnmarshalJSON (Bytes.text (Json.obj members))).2 = none ∧
    ((EncryptedEventContent.zero.UnmarshalJSON (Bytes.text (Json.obj members))).1.MarshalJSON).2 =
      .ok (Bytes.text (Json.obj
        [("algorithm", Json.str ((lastText .algorithm members).getD "")),
         ("sender_key", Json.str ((lastText .senderKey members).getD "")),
         ("device_id", Json.str ((lastText .deviceID members).getD "")),
         ("session_id", Json.str ((lastText .sessionID members).getD "")),
         ("ciphertext", c)])) := by
  have h1 : (envelopeOf members EncryptedEventContent.zero).Algorithm ≠ AlgorithmOlmV1 := holm
  have h2 : (envelopeOf members EncryptedEventContent.zero).Algorithm ≠ AlgorithmMegolmV1 := hmegolm
  have hd : ¬ maxNestingDepth < c.depth := lastMember_depth _ members c hparse.1 hct
  rw [unmarshalJSON_obj members _ hparse, if_neg h1, if_neg h2]
  refine ⟨rfl, ?_⟩
  rw [marshalJSON_other _ h1 h2]
  simp only [envelopeOf, rawCiphertext, hct, marshalRawMessage, if_neg hd, envelopeMembers,
    EncryptedEventContent.zero, lastString_toValidUTF8]

theorem opaque_ciphertext_reemitted_witness :
    (EncryptedEventContent.zero.UnmarshalJSON (Bytes.text (Json.obj
      [("algorithm", Json.str "org.example.future.v2"), ("sender_key", Json.str "abc"),
       ("ciphertext", Json.obj [("n", Json.real "1.5e3"), ("xs", Json.arr [Json.null])])]))).2
      = none ∧
    ((EncryptedEventContent.zero.UnmarshalJSON (Bytes.text (Json.obj
      [("algorithm", Json.str "org.example.future.v2"), ("sender_key", Json.str "abc"),
       ("ciphertext", Json.obj [("n", Json.real "1.5e3"), ("xs", Json.arr [Json.null])])]))).1.MarshalJSON).2
      = .ok (Bytes.text (Json.obj
        [("algorithm", Json.str "org.example.future.v2"), ("sender_key", Json.str "abc"),
         ("device_id", Json.str ""), ("session_id", Json.str ""),
         ("ciphertext", Json.obj [("n", Json.real "1.5e3"), ("xs", Json.arr [Json.null])])])) :=
  opaque_ciphertext_reemitted
    [("algorithm", Json.str "org.example.future.v2"), ("sender_key", Json.str "abc"),
     ("ciphertext", Json.obj [("n", Json.real "1.5e3"), ("xs", Json.arr [Json.null])])]
    (Json.obj [("n", Json.real "1.5e3"), ("xs", Json.arr [Json.null])])
    (by decide) (by decide) (by decide) rfl

/-- C12, counterexample: `MarshalJSON` on a content under the group-session
tag whose raw `Ciphertext` is nil leaves `Ciphertext` holding the JSON string of
`MegolmCiphertext`: the method assigns `content.Ciphertext` through its pointer
receiver, so that field is not equal to its value before the call. -/
theorem marshal_overwrites_ciphertext :
    ({ EncryptedEventContent.zero with
        Algorithm := AlgorithmMegolmV1,
        MegolmCiphertext := GoString.ofString "opaqueblob" }).Ciphertext
      = Bytes.nil ∧
    ({ EncryptedEventContent.zero with
        Algorithm := AlgorithmMegolmV1,
        MegolmCiphertext := GoString.ofString "opaqueblob" }.MarshalJSON).1.Ciphertext
      = Bytes.text (Json.str "opaqueblob") ∧
    Bytes.text (Json.str "opaqueblob") ≠ Bytes.nil := by
  refine ⟨rfl, ?_, fun h => Bytes.noConfusion h⟩
  rw [marshalJSON_megolm _ rfl]
  simp only [toValidUTF8_ofString]

/-- C12, amended (what encode leaves unchanged): for every content,
`MarshalJSON` leaves `Algorithm`, `SenderKey`, `DeviceID`, `SessionID`,
`MegolmCiphertext` and `OlmCiphertext` equal to their values before the call;
the raw `Ciphertext` is left as it was under a tag that is neither known tag
and is overwritten with the serialisation of the selected payload under the
pairwise or the group-session tag. -/
theorem marshal_frame (v : EncryptedEventContent) :
    v.MarshalJSON.1.Algorithm = v.Algorithm ∧
    v.MarshalJSON.1.SenderKey = v.SenderKey ∧
    v.MarshalJSON.1.DeviceID = v.DeviceID ∧
    v.MarshalJSON.1.SessionID = v.SessionID ∧
    v.MarshalJSON.1.MegolmCiphertext = v.MegolmCiphertext ∧
    v.MarshalJSON.1.OlmCiphertext = v.OlmCiphertext ∧
    v.MarshalJSON.1.Ciphertext =
      (if v.Algorithm = AlgorithmOlmV1 then Bytes.text (olmJson v.OlmCiphertext)
       else if v.Algorithm = AlgorithmMegolmV1 then
         Bytes.text (Json.str v.MegolmCiphertext.toValidUTF8)
       else v.Ciphertext) := by
  by_cases ho : v.Algorithm = AlgorithmOlmV1
  · rw [marshalJSON_olm v ho, if_pos ho]
    exact ⟨rfl, rfl, rfl, rfl, rfl, rfl, rfl⟩
  · by_cases hm : v.Algorithm = AlgorithmMegolmV1
    · rw [marshalJSON_megolm v hm, if_neg ho, if_pos hm]
      exact ⟨rfl, rfl, rfl, rfl, rfl, rfl, rfl⟩
    · rw [marshalJSON_other v ho hm, if_neg ho, if_neg hm]
      exact ⟨rfl, rfl, rfl, rfl, rfl, rfl, rfl⟩

theorem unmarshalEnvelope_payload (data : Bytes) (c : EncryptedEventContent) :
    (unmarshalEnvelope data c).1.MegolmCiphertext = c.MegolmCiphertext ∧
    (unmarshalEnvelope data c).1.OlmCiphertext = c.OlmCiphertext := by
  cases data with
  | nil => exact ⟨rfl, rfl⟩
  | malformed => exact ⟨rfl, rfl⟩
  | text j =>
    by_cases hdeep : maxNestingDepth < j.depth
    · rw [unmarshalEnvelope_deep j c hdeep]
      exact ⟨rfl, rfl⟩
    · cases j with
      | obj members =>
        rw [unmarshalEnvelope_shallow members c (not_lt.1 hdeep), envelope_fold_fst]
        exact ⟨rfl, rfl⟩
      | _ => simp [unmarshalEnvelope, if_neg hdeep]

/-- C13 (payload variants are exclusive and chosen by the tag): whenever
`UnmarshalJSON` into a fresh value returns no error, `OlmCiphertext` is nil
when the decoded `Algorithm` is the group-session tag, `MegolmCiphertext` is
empty when it is the pairwise tag, and both are unset under any other tag. -/
theorem payload_chosen_by_tag (data : Bytes)
    (hok : (EncryptedEventContent.zero.UnmarshalJSON data).2 = none) :
    ((EncryptedEventContent.zero.UnmarshalJSON data).1.Algorithm = AlgorithmMegolmV1 →
      (EncryptedEventContent.zero.UnmarshalJSON data).1.OlmCiphertext = none) ∧
    ((EncryptedEventContent.zero.UnmarshalJSON data).1.Algorithm = AlgorithmOlmV1 →
      (EncryptedEventContent.zero.UnmarshalJSON data).1.MegolmCiphertext = []) ∧
    ((EncryptedEventContent.zero.UnmarshalJSON data).1.Algorithm ≠ AlgorithmMegolmV1 →
      (EncryptedEventContent.zero.UnmarshalJSON data).1.Algorithm ≠ AlgorithmOlmV1 →
      (EncryptedEventContent.zero.UnmarshalJSON data).1.MegolmCiphertext = [] ∧
      (EncryptedEventContent.zero.UnmarshalJSON data).1.OlmCiphertext = none) := by
  obtain ⟨hm0, ho0⟩ := unmarshalEnvelope_payload data EncryptedEventContent.zero
  simp only [EncryptedEventContent.UnmarshalJSON] at hok ⊢
  generalize unmarshalEnvelope data EncryptedEventContent.zero = r at hm0 ho0 hok ⊢
  obtain ⟨c, err⟩ := r
  simp only at hm0 ho0
  cases err with
  | some e => simp at hok
  | none =>
    simp only
    by_cases ho : c.Algorithm = AlgorithmOlmV1
    · simp only [if_pos ho]
      refine ⟨fun h => absurd (h.symm.trans ho) algorithm_tags_differ, fun _ => hm0, ?_⟩
      intro _ h
      exact absurd ho h
    · by_cases hm : c.Algorithm = AlgorithmMegolmV1
      · simp only [if_neg ho, if_pos hm]
        refine ⟨fun _ => ho0, fun h => absurd h ho, ?_⟩
        intro h _
        exact absurd hm h
      · simp only [if_neg ho, if_neg hm]
        exact ⟨fun h => absurd h hm, fun h => absurd h ho, fun _ _ => ⟨hm0, ho0⟩⟩

theorem payload_chosen_by_tag_witness :
    ((EncryptedEventContent.zero.UnmarshalJSON (Bytes.text (Json.obj
        (envelopeMembers "m.olm.v1.curve25519-aes-sha2" "abc" "DEV1" "sess1"
          (Json.obj [("curve", Json.obj [("body", Json.str "x"), ("type", Json.int 1)])]))))).1.Algorithm
        = AlgorithmMegolmV1 →
      (EncryptedEventContent.zero.UnmarshalJSON (Bytes.text (Json.obj
        (envelopeMembers "m.olm.v1.curve25519-aes-sha2" "abc" "DEV1" "sess1"
          (Json.obj [("curve", Json.obj [("body", Json.str "x"), ("type", Json.int 1)])]))))).1.OlmCiphertext
        = none) ∧
    ((EncryptedEventContent.zero.UnmarshalJSON (Bytes.text (Json.obj
        (envelopeMembers "m.olm.v1.curve25519-aes-sha2" "abc" "DEV1" "sess1"
          (Json.obj [("curve", Json.obj [("body", Json.str "x"), ("type", Json.int 1)])]))))).1.Algorithm
        = AlgorithmOlmV1 →
      (EncryptedEventContent.zero.UnmarshalJSON (Bytes.text (Json.obj
        (envelopeMembers "m.olm.v1.curve25519-aes-sha2" "abc" "DEV1" "sess1"
          (Json.obj [("curve", Json.obj [("body", Json.str "x"), ("type", Json.int 1)])]))))).1.MegolmCiphertext
        = []) ∧
    ((EncryptedEventContent.zero.UnmarshalJSON (Bytes.text (Json.obj
        (envelopeMembers "m.olm.v1.curve25519-aes-sha2" "abc" "DEV1" "sess1"
          (Json.obj [("curve", Json.obj [("body", Json.str "x"), ("type", Json.int 1)])]))))).1.Algorithm
        ≠ AlgorithmMegolmV1 →
      (EncryptedEventContent.zero.UnmarshalJSON (Bytes.text (Json.obj
        (envelopeMembers "m.olm.v1.curve25519-aes-sha2" "abc" "DEV1" "sess1"
          (Json.obj [("curve", Json.obj [("body", Json.str "x"), ("type", Json.int 1)])]))))).1.Algorithm
        ≠ AlgorithmOlmV1 →
      (EncryptedEventContent.zero.UnmarshalJSON (Bytes.text (Json.obj
        (envelopeMembers "m.olm.v1.curve25519-aes-sha2" "abc" "DEV1" "sess1"
          (Json.obj [("curve", Json.obj [("body", Json.str "x"), ("type", Json.int 1)])]))))).1.MegolmCiphertext
        = [] ∧
      (EncryptedEventContent.zero.UnmarshalJSON (Bytes.text (Json.obj
        (envelopeMembers "m.olm.v1.curve25519-aes-sha2" "abc" "DEV1" "sess1"
          (Json.obj [("curve", Json.obj [("body", Json.str "x"), ("type", Json.int 1)])]))))).1.OlmCiphertext
        = none) :=
  payload_chosen_by_tag
    (Bytes.text (Json.obj
      (envelopeMembers "m.olm.v1.curve25519-aes-sha2" "abc" "DEV1" "sess1"
        (Json.obj [("curve", Json.obj [("body", Json.str "x"), ("type", Json.int 1)])]))))
    (by decide)

/-! ## Codec: decoding a map of entries -/

theorem mem_insertEntry {V : Type} (k : GoString) (v : V) (p : GoString × V) :
    ∀ (l : List (GoString × V)), l.Pairwise (fun a b => a.1 < b.1) →
      (p ∈ insertEntry k v l ↔ p = (k, v) ∨ (p ∈ l ∧ p.1 ≠ k)) := by
  intro l
  induction l with
  | nil =>
    intro _
    simp [insertEntry]
  | cons hd tl ih =>
    intro hs
    obtain ⟨k', v'⟩ := hd
    rw [List.pairwise_cons] at hs
    obtain ⟨hhd, htl⟩ := hs
    simp only [insertEntry]
    split_ifs with h1 h2
    · simp only [List.mem_cons]
      constructor
      · rintro (h | h | h)
        · exact Or.inl h
        · subst h
          exact Or.inr ⟨Or.inl rfl, fun hk => absurd h1 (by rw [← hk]; exact lt_irrefl _)⟩
        · exact Or.inr ⟨Or.inr h, fun hk => by
            have := lt_trans h1 (hhd p h)
            rw [hk] at this
            exact lt_irrefl _ this⟩
      · rintro (h | ⟨h | h, _⟩)
        · exact Or.inl h
        · exact Or.inr (Or.inl h)
        · exact Or.inr (Or.inr h)
    · subst h2
      simp only [List.mem_cons]
      constructor
      · rintro (h | h)
        · exact Or.inl h
        · exact Or.inr ⟨Or.inr h, fun hk => by
            have := hhd p h
            rw [hk] at this
            exact lt_irrefl _ this⟩
      · rintro (h | ⟨h | h, hne⟩)
        · exact Or.inl h
        · subst h
          exact absurd rfl hne
        · exact Or.inr h
    · simp only [List.mem_cons, ih htl]
      constructor
      · rintro (h | h | ⟨h, hne⟩)
        · subst h
          exact Or.inr ⟨Or.inl rfl, fun hk => h2 hk.symm⟩
        · exact Or.inl h
        · exact Or.inr ⟨Or.inr h, hne⟩
      · rintro (h | ⟨h | h, hne⟩)
        · exact Or.inr (Or.inl h)
        · exact Or.inl h
        · exact Or.inr (Or.inr ⟨h, hne⟩)

/-- Decoding the members of an object into an empty map, when the member
names are distinct and every member decodes without error: no error, and the
map holds exactly the decoded members. -/
theorem olmMap_fold (l : List (String × Json)) :
    (l.map Prod.fst).Nodup → (∀ x ∈ l, (decodeOlmEntry x.2 OlmEntry.zero).2 = none) →
      (l.foldl olmMapStep (StrMap.empty, none)).2 = none ∧
      ∀ p, p ∈ (l.foldl olmMapStep (StrMap.empty, none)).1.entries ↔ p ∈ l.map decodedEntry := by
  induction l using List.reverseRecOn with
  | nil =>
    intro _ _
    simp [StrMap.empty]
  | append_singleton l x ih =>
    intro hnd hok
    rw [List.map_append, List.nodup_append] at hnd
    obtain ⟨hnd1, _, hdisj⟩ := hnd
    obtain ⟨ih1, ih2⟩ := ih hnd1 (fun y hy => hok y (List.mem_append_left _ hy))
    have hx := hok x (List.mem_append_right _ (List.mem_singleton_self x))
    rw [List.foldl_append]
    simp only [List.foldl_cons, List.foldl_nil, olmMapStep, ih1, hx, saveError, true_and]
    intro p
    simp only [StrMap.insert]
    rw [mem_insertEntry _ _ _ _ (l.foldl olmMapStep (StrMap.empty, none)).1.sorted, ih2 p]
    simp only [List.map_append, List.map_cons, List.map_nil, List.mem_append, List.mem_singleton]
    constructor
    · rintro (h | ⟨h, _⟩)
      · exact Or.inr h
      · exact Or.inl h
    · rintro (h | h)
      · refine Or.inr ⟨h, ?_⟩
        intro hk
        obtain ⟨y, hy, hyp⟩ := List.mem_map.1 h
        have hyx : y.1 = x.1 := ofString_injective _ _ (by
          rw [← hyp] at hk
          exact hk)
        apply hdisj (a := x.1)
        · rw [← hyx]
          exact List.mem_map.2 ⟨y, hy, rfl⟩
        · simp
      · exact Or.inl h

theorem strMap_eq_of_mem_iff {V : Type} (a b : StrMap V)
    (h : ∀ p, p ∈ a.entries ↔ p ∈ b.entries) : a = b := by
  apply ext_entries
  have hnd : ∀ (m : StrMap V), m.entries.Nodup := fun m =>
    m.sorted.imp (fun {x y} hxy hxy2 => by
      rw [hxy2] at hxy
      exact lt_irrefl _ hxy)
  have hperm : a.entries.Perm b.entries := (List.perm_ext_iff_of_nodup (hnd a) (hnd b)).2 h
  exact List.Perm.eq_of_sorted
    (fun x y _ _ hxy hyx => absurd (lt_trans hxy hyx) (lt_irrefl _)) a.sorted b.sorted hperm

theorem decodeOlmEntry_marshal (e : OlmEntry) (h : e.Body.IsUTF8) :
    decodeOlmEntry (marshalOlmEntry e) OlmEntry.zero = (e, none) := by
  obtain ⟨b, n, hn⟩ := e
  have h' : GoString.ofString b.toValidUTF8 = b := h
  simp [decodeOlmEntry, marshalOlmEntry, olmEntryStep, olmFieldOf_body, olmFieldOf_type,
    decodeString, decodeInt, saveError, hn, OlmEntry.zero, h']

/-- Decoding what `json.Marshal` wrote for an `OlmCiphertexts` value whose
keys and bodies are valid UTF-8 into a freshly made map gives the value back,
nil for nil. -/
theorem unmarshal_olmJson (m : OlmCiphertexts) (hutf : OlmCiphertexts.IsUTF8 m) :
    unmarshalOlmCiphertexts (Bytes.text (olmJson m)) (some StrMap.empty) = (m, none) := by
  cases m with
  | none => simp [olmJson, unmarshalOlmCiphertexts, Json.depth]
  | some m =>
    have hutf' : ∀ p ∈ m.entries, p.1.IsUTF8 ∧ p.2.Body.IsUTF8 := hutf
    have hd := olmJson_depth (some m)
    simp only [olmJson] at hd
    simp only [olmJson, unmarshalOlmCiphertexts, if_neg hd, Option.getD_some]
    have hkeys : ((m.entries.map (fun p =>
        (p.1.toValidUTF8,
         Json.obj [("body", Json.str p.2.Body.toValidUTF8), ("type", Json.int p.2.Typ.val)]))).map
        Prod.fst).Nodup := by
      rw [List.map_map]
      refine List.pairwise_map.2 (m.sorted.imp_of_mem ?_)
      intro x y hx hy hxy hxy2
      have := toValidUTF8_injective x.1 y.1 (hutf' x hx).1 (hutf' y hy).1 hxy2
      rw [this] at hxy
      exact lt_irrefl _ hxy
    obtain ⟨h1, h2⟩ := olmMap_fold _ hkeys (by
      intro x hx
      obtain ⟨p, hp, hpe⟩ := List.mem_map.1 hx
      rw [← hpe]
      exact congrArg Prod.snd (decodeOlmEntry_marshal p.2 (hutf' p hp).2))
    refine Prod.ext ?_ h1
    simp only
    congr 1
    apply strMap_eq_of_mem_iff
    intro p
    rw [h2 p, List.map_map]
    have hid : ∀ q ∈ m.entries, (decodedEntry ∘ fun p : GoString × OlmEntry =>
        (p.1.toValidUTF8,
         Json.obj [("body", Json.str p.2.Body.toValidUTF8), ("type", Json.int p.2.Typ.val)])) q
        = q := by
      intro q hq
      simp only [Function.comp, decodedEntry]
      have := decodeOlmEntry_marshal q.2 (hutf' q hq).2
      simp only [marshalOlmEntry] at this
      rw [this]
      exact Prod.ext (hutf' q hq).1 rfl
    rw [List.map_congr_left hid, List.map_id']

/-- The five members `json.Marshal` writes for the envelope nest one level
deeper than the ciphertext member. -/
theorem envelopeMembers_depth (a sk d sid : String) (ct : Json)
    (hd : ct.depth < maxNestingDepth) :
    (Json.obj (envelopeMembers a sk d sid ct)).depth ≤ maxNestingDepth := by
  rw [depth_obj]
  have : depthMembers (envelopeMembers a sk d sid ct) ≤ ct.depth := by
    rw [depthMembers_le_iff]
    intro m hm
    simp only [envelopeMembers, List.mem_cons, List.mem_singleton, List.not_mem_nil,
      or_false] at hm
    rcases hm with h | h | h | h | h <;> subst h <;> simp [Json.depth]
  omega

/-- The first pass of `UnmarshalJSON` on the object `json.Marshal` writes for
the envelope struct. -/
theorem unmarshalEnvelope_members (a sk d sid : String) (ct : Json) (c : EncryptedEventContent)
    (hd : ct.depth < maxNestingDepth) :
    unmarshalEnvelope (Bytes.text (Json.obj (envelopeMembers a sk d sid ct))) c =
      ({ c with Algorithm := GoString.ofString a, SenderKey := GoString.ofString sk,
                DeviceID := GoString.ofString d, SessionID := GoString.ofString sid,
                Ciphertext := Bytes.text ct }, none) := by
  rw [unmarshalEnvelope_shallow _ c (envelopeMembers_depth a sk d sid ct hd)]
  simp [envelopeMembers, envelopeStep, fieldOf_algorithm, fieldOf_sender_key,
    fieldOf_device_id, fieldOf_session_id, fieldOf_ciphertext, setEnvelopeField, decodeString,
    saveError]

/-! ## Codec: the round-trip law -/

/-- C1, counterexample: two contents that do not come back. A content under
the group-session tag whose `OlmCiphertext` also holds an entry encodes without
error, and decoding the bytes into a fresh value succeeds with `OlmCiphertext`
nil: the entry is lost. A content under the group-session tag whose
`OlmCiphertext` is nil and whose `MegolmCiphertext` is the single byte 0xFF,
which is not valid UTF-8, encodes to the string U+FFFD, and decoding the bytes
succeeds with `MegolmCiphertext` the three bytes of U+FFFD. -/
theorem roundtrip_drops_unselected_payload :
    (({ Algorithm := AlgorithmMegolmV1, SenderKey := GoString.ofString "abc",
        DeviceID := GoString.ofString "DEV1", SessionID := GoString.ofString "sess1",
        Ciphertext := Bytes.nil, MegolmCiphertext := GoString.ofString "opaqueblob",
        OlmCiphertext := some (StrMap.empty.insert (GoString.ofString "curve")
          ⟨GoString.ofString "body", OlmNormalMessage⟩) }
      : EncryptedEventContent).MarshalJSON.2 =
      .ok (Bytes.text (Json.obj (envelopeMembers "m.megolm.v1.aes-sha2" "abc" "DEV1" "sess1"
        (Json.str "opaqueblob")))) ∧
    (EncryptedEventContent.zero.UnmarshalJSON (Bytes.text (Json.obj
      (envelopeMembers "m.megolm.v1.aes-sha2" "abc" "DEV1" "sess1"
        (Json.str "opaqueblob"))))).2 = none ∧
    (EncryptedEventContent.zero.UnmarshalJSON (Bytes.text (Json.obj
      (envelopeMembers "m.megolm.v1.aes-sha2" "abc" "DEV1" "sess1"
        (Json.str "opaqueblob"))))).1.OlmCiphertext = none ∧
    (none : OlmCiphertexts) ≠ some (StrMap.empty.insert (GoString.ofString "curve")
      ⟨GoString.ofString "body", OlmNormalMessage⟩)) ∧
    (({ EncryptedEventContent.zero with
        Algorithm := AlgorithmMegolmV1, MegolmCiphertext := [byte 255] }.MarshalJSON).2 =
      .ok (Bytes.text (Json.obj (envelopeMembers "m.megolm.v1.aes-sha2" "" "" ""
        (Json.str (String.mk [Char.ofNat 65533]))))) ∧
    (EncryptedEventContent.zero.UnmarshalJSON (Bytes.text (Json.obj
      (envelopeMembers "m.megolm.v1.aes-sha2" "" "" ""
        (Json.str (String.mk [Char.ofNat 65533])))))).2 = none ∧
    (EncryptedEventContent.zero.UnmarshalJSON (Bytes.text (Json.obj
      (envelopeMembers "m.megolm.v1.aes-sha2" "" "" ""
        (Json.str (String.mk [Char.ofNat 65533])))))).1.MegolmCiphertext
      = [byte 239, byte 191, byte 189] ∧
    ([byte 239, byte 191, byte 189] : GoString) ≠ [byte 255]) := by
  refine ⟨⟨?_, by decide, by decide, by decide⟩, ⟨?_, by decide, by decide, by decide⟩⟩
  · rw [marshalJSON_megolm _ rfl]
    simp only [AlgorithmMegolmV1, toValidUTF8_ofString]
  · rw [marshalJSON_megolm _ rfl]
    simp only [AlgorithmMegolmV1, EncryptedEventContent.zero, toValidUTF8_ofString]
    rfl

/-- C1, amended (round-trip law): for every content whose `Algorithm` is one
of the two known tags, whose payload field not selected by the tag is unset
(`OlmCiphertext` nil under the group-session tag, `MegolmCiphertext` empty under
the pairwise tag) and whose Go strings (`SenderKey`, `DeviceID`, `SessionID`,
`MegolmCiphertext`, the keys and bodies of `OlmCiphertext`) are valid UTF-8,
`MarshalJSON` returns bytes without error, and `UnmarshalJSON` of those bytes
into a fresh value returns no error and a value with the same `Algorithm`,
`SenderKey`, `DeviceID`, `SessionID`, `MegolmCiphertext` and `OlmCiphertext`. -/
theorem marshal_unmarshal_roundtrip (v : EncryptedEventContent)
    (h : (v.Algorithm = AlgorithmMegolmV1 ∧ v.OlmCiphertext = none) ∨
         (v.Algorithm = AlgorithmOlmV1 ∧ v.MegolmCiphertext = []))
    (hutf : v.IsUTF8) :
    ∃ b, v.MarshalJSON.2 = .ok b ∧
      (EncryptedEventContent.zero.UnmarshalJSON b).2 = none ∧
      (EncryptedEventContent.zero.UnmarshalJSON b).1.Algorithm = v.Algorithm ∧
      (EncryptedEventContent.zero.UnmarshalJSON b).1.SenderKey = v.SenderKey ∧
      (EncryptedEventContent.zero.UnmarshalJSON b).1.DeviceID = v.DeviceID ∧
      (EncryptedEventContent.zero.UnmarshalJSON b).1.SessionID = v.SessionID ∧
      (EncryptedEventContent.zero.UnmarshalJSON b).1.MegolmCiphertext = v.MegolmCiphertext ∧
      (EncryptedEventContent.zero.UnmarshalJSON b).1.OlmCiphertext = v.OlmCiphertext := by
  obtain ⟨hsk, hdev, hsid, hmc, holm⟩ := hutf
  have hsk' : GoString.ofString v.SenderKey.toValidUTF8 = v.SenderKey := hsk
  have hdev' : GoString.ofString v.DeviceID.toValidUTF8 = v.DeviceID := hdev
  have hsid' : GoString.ofString v.SessionID.toValidUTF8 = v.SessionID := hsid
  have hmc' : GoString.ofString v.MegolmCiphertext.toValidUTF8 = v.MegolmCiphertext := hmc
  have hm : GoString.ofString AlgorithmMegolmV1.toValidUTF8 = AlgorithmMegolmV1 :=
    ofString_isUTF8 _
  have ho : GoString.ofString AlgorithmOlmV1.toValidUTF8 = AlgorithmOlmV1 :=
    ofString_isUTF8 _
  rcases h with ⟨halg, hother⟩ | ⟨halg, hother⟩
  · refine ⟨_, congrArg Prod.snd (marshalJSON_megolm v halg), ?_⟩
    have hd : (Json.str v.MegolmCiphertext.toValidUTF8).depth < maxNestingDepth := by
      simp [Json.depth, maxNestingDepth]
    simp only [EncryptedEventContent.UnmarshalJSON, unmarshalEnvelope_members _ _ _ _ _ _ hd,
      halg, hm, if_neg algorithm_tags_differ, if_true,
      unmarshalString_scalar (Json.str v.MegolmCiphertext.toValidUTF8) _ rfl, decodeString,
      hother, EncryptedEventContent.zero, hsk', hdev', hsid', hmc']
    simp
  · refine ⟨_, congrArg Prod.snd (marshalJSON_olm v halg), ?_⟩
    have hd : (olmJson v.OlmCiphertext).depth < maxNestingDepth := by
      have := olmJson_depth_le v.OlmCiphertext
      simp only [maxNestingDepth]
      omega
    simp only [EncryptedEventContent.UnmarshalJSON, unmarshalEnvelope_members _ _ _ _ _ _ hd,
      halg, ho, if_true, unmarshal_olmJson _ holm, hother, EncryptedEventContent.zero,
      hsk', hdev', hsid']
    simp

theorem marshal_unmarshal_roundtrip_witness :
    ∃ b, ({ Algorithm := AlgorithmOlmV1, SenderKey := GoString.ofString "abc",
            DeviceID := GoString.ofString "DEV1", SessionID := GoString.ofString "sess1",
            Ciphertext := Bytes.nil, MegolmCiphertext := [],
            OlmCiphertext := some (StrMap.empty.insert (GoString.ofString "curve")
              ⟨GoString.ofString "body", OlmNormalMessage⟩) }
          : EncryptedEventContent).MarshalJSON.2 = .ok b ∧
      (EncryptedEventContent.zero.UnmarshalJSON b).2 = none ∧
      (EncryptedEventContent.zero.UnmarshalJSON b).1.Algorithm = AlgorithmOlmV1 ∧
      (EncryptedEventContent.zero.UnmarshalJSON b).1.SenderKey = GoString.ofString "abc" ∧
      (EncryptedEventContent.zero.UnmarshalJSON b).1.DeviceID = GoString.ofString "DEV1" ∧
      (EncryptedEventContent.zero.UnmarshalJSON b).1.SessionID = GoString.ofString "sess1" ∧
      (EncryptedEventContent.zero.UnmarshalJSON b).1.MegolmCiphertext = [] ∧
      (EncryptedEventContent.zero.UnmarshalJSON b).1.OlmCiphertext =
        some (StrMap.empty.insert (GoString.ofString "curve")
          ⟨GoString.ofString "body", OlmNormalMessage⟩) :=
  marshal_unmarshal_roundtrip
    { Algorithm := AlgorithmOlmV1, SenderKey := GoString.ofString "abc",
      DeviceID := GoString.ofString "DEV1", SessionID := GoString.ofString "sess1",
      Ciphertext := Bytes.nil, MegolmCiphertext := [],
      OlmCiphertext := some (StrMap.empty.insert (GoString.ofString "curve")
        ⟨GoString.ofString "body", OlmNormalMessage⟩) }
    (Or.inr ⟨rfl, rfl⟩)
    ⟨ofString_isUTF8 _, ofString_isUTF8 _, ofString_isUTF8 _, by decide, by
      intro p hp
      have hp' : p = (GoString.ofString "curve", ⟨GoString.ofString "body", OlmNormalMessage⟩) := by
        simpa [StrMap.insert, StrMap.empty, insertEntry] using hp
      subst hp'
      exact ⟨ofString_isUTF8 _, ofString_isUTF8 _⟩⟩

/-! ## Codec: re-encoding a decoded payload -/

theorem lastMember_unique (f : Field) (l : List (String × Json)) (m : String × Json)
    (hm : m ∈ l) (hf : fieldOf m.1 = some f)
    (huniq : ∀ x ∈ l, fieldOf x.1 = some f → x = m) : lastMember f l = some m.2 := by
  simp only [lastMember]
  cases hfind : l.reverse.find? (fun m => decide (fieldOf m.1 = some f)) with
  | none =>
    rw [List.find?_eq_none] at hfind
    have := hfind m (List.mem_reverse.2 hm)
    simp [hf] at this
  | some x =>
    have hx1 : fieldOf x.1 = some f := by
      have := List.find?_some hfind
      simpa using this
    have hx2 : x ∈ l := List.mem_reverse.1 (List.mem_of_find?_eq_some hfind)
    rw [huniq x hx2 hx1]
    rfl

/-- An object with exactly the five envelope members, in any order, whose
first four are strings and whose ciphertext nests less deep than the limit:
its envelope parses and it denotes those values. -/
theorem envelopeOf_perm (members : List (String × Json)) (a sk d sid : String) (ct : Json)
    (hmem : members.Perm (envelopeMembers a sk d sid ct))
    (hd : ct.depth < maxNestingDepth) :
    EnvelopeParses members ∧
    envelopeOf members EncryptedEventContent.zero =
      { Algorithm := GoString.ofString a, SenderKey := GoString.ofString sk,
        DeviceID := GoString.ofString d, SessionID := GoString.ofString sid,
        Ciphertext := Bytes.text ct, MegolmCiphertext := [], OlmCiphertext := none } := by
  have hiff : ∀ x, x ∈ members ↔ x ∈ envelopeMembers a sk d sid ct := fun x => hmem.mem_iff
  have hlast : ∀ (f : Field) (m : String × Json), m ∈ envelopeMembers a sk d sid ct →
      fieldOf m.1 = some f →
      (∀ x ∈ envelopeMembers a sk d sid ct, fieldOf x.1 = some f → x = m) →
      lastMember f members = some m.2 := by
    intro f m hm hf hu
    exact lastMember_unique f members m ((hiff m).2 hm) hf
      (fun x hx hxf => hu x ((hiff x).1 hx) hxf)
  refine ⟨⟨?_, ?_⟩, ?_⟩
  · have h0 := envelopeMembers_depth a sk d sid ct hd
    rw [depth_obj] at h0 ⊢
    have h1 : depthMembers members ≤ depthMembers (envelopeMembers a sk d sid ct) := by
      rw [depthMembers_le_iff]
      intro m hm
      exact (depthMembers_le_iff _ _).1 (le_refl _) m ((hiff m).1 hm)
    omega
  · intro m hm
    have := (hiff m).1 hm
    simp only [envelopeMembers, List.mem_cons, List.mem_singleton, List.not_mem_nil,
      or_false] at this
    rcases this with h | h | h | h | h <;> subst h <;>
      simp [memberParses, fieldOf_algorithm, fieldOf_sender_key, fieldOf_device_id,
        fieldOf_session_id, fieldOf_ciphertext, Json.isNullOrString]
  · have h1 := hlast .algorithm ("algorithm", Json.str a) (by simp [envelopeMembers])
      fieldOf_algorithm (by
        simp [envelopeMembers, fieldOf_algorithm, fieldOf_sender_key, fieldOf_device_id,
          fieldOf_session_id, fieldOf_ciphertext])
    have h2 := hlast .senderKey ("sender_key", Json.str sk) (by simp [envelopeMembers])
      fieldOf_sender_key (by
        simp [envelopeMembers, fieldOf_algorithm, fieldOf_sender_key, fieldOf_device_id,
          fieldOf_session_id, fieldOf_ciphertext])
    have h3 := hlast .deviceID ("device_id", Json.str d) (by simp [envelopeMembers])
      fieldOf_device_id (by
        simp [envelopeMembers, fieldOf_algorithm, fieldOf_sender_key, fieldOf_device_id,
          fieldOf_session_id, fieldOf_ciphertext])
    have h4 := hlast .sessionID ("session_id", Json.str sid) (by simp [envelopeMembers])
      fieldOf_session_id (by
        simp [envelopeMembers, fieldOf_algorithm, fieldOf_sender_key, fieldOf_device_id,
          fieldOf_session_id, fieldOf_ciphertext])
    have h5 := hlast .ciphertext ("ciphertext", ct) (by simp [envelopeMembers])
      fieldOf_ciphertext (by
        simp [envelopeMembers, fieldOf_algorithm, fieldOf_sender_key, fieldOf_device_id,
          fieldOf_session_id, fieldOf_ciphertext])
    simp only [envelopeOf, rawCiphertext, lastString_of_lastMember _ _ _ h1,
      lastString_of_lastMember _ _ _ h2, lastString_of_lastMember _ _ _ h3,
      lastString_of_lastMember _ _ _ h4, h5, Option.getD_some]
    rfl

/-- Two members of the same name in two five-member envelopes that differ at
most in `ciphertext`: they are the two `ciphertext` values or equal values. -/
theorem envelopeMembers_same_key (a sk d sid : String) (ct ct' : Json) (k : String)
    (v v' : Json) (h : (k, v) ∈ envelopeMembers a sk d sid ct)
    (h' : (k, v') ∈ envelopeMembers a sk d sid ct') :
    (v = ct ∧ v' = ct') ∨ v = v' := by
  simp only [envelopeMembers, List.mem_cons, List.mem_singleton, List.not_mem_nil, or_false,
    Prod.mk.injEq] at h h'
  rcases h with ⟨hk, hv⟩ | ⟨hk, hv⟩ | ⟨hk, hv⟩ | ⟨hk, hv⟩ | ⟨hk, hv⟩ <;>
    rcases h' with ⟨hk', hv'⟩ | ⟨hk', hv'⟩ | ⟨hk', hv'⟩ | ⟨hk', hv'⟩ | ⟨hk', hv'⟩ <;>
    first
    | exact Or.inr (hv.trans hv'.symm)
    | exact Or.inl ⟨hv, hv'⟩
    | exact absurd (hk.symm.trans hk') (by decide)

/-- Re-encoded envelopes: equal up to member order when the ciphertexts are. -/
theorem jsonEq_envelope (members : List (String × Json)) (a sk d sid : String) (ct ct' : Json)
    (hmem : members.Perm (envelopeMembers a sk d sid ct)) (hct : JsonEq ct' ct) :
    JsonEq (Json.obj (envelopeMembers a sk d sid ct')) (Json.obj members) := by
  apply JsonEq.obj
  · have := hmem.symm.map Prod.fst
    exact this
  · intro k v₁ v₂ h1 h2
    have h2' : (k, v₂) ∈ envelopeMembers a sk d sid ct := hmem.mem_iff.1 h2
    rcases envelopeMembers_same_key a sk d sid ct' ct k v₁ v₂ h1 h2' with ⟨e1, e2⟩ | e
    · rw [e1, e2]
      exact hct
    · rw [e]
      exact JsonEq.refl _

/-- A value of the shape of a pairwise entry decodes without error, and the
entry encodes to an equal JSON value. -/
theorem decodeOlmEntry_shape (j : Json) (h : IsOlmEntryJson j) :
    (decodeOlmEntry j OlmEntry.zero).2 = none ∧
    JsonEq (marshalOlmEntry (decodeOlmEntry j OlmEntry.zero).1) j := by
  obtain ⟨body, n, h1, h2, hj | hj⟩ := h
  · subst hj
    have hdec : decodeOlmEntry (Json.obj [("body", Json.str body), ("type", Json.int n)])
        OlmEntry.zero = (⟨GoString.ofString body, ⟨n, h1, h2⟩⟩, none) := by
      simp [decodeOlmEntry, olmEntryStep, olmFieldOf_body, olmFieldOf_type, decodeString,
        decodeInt, saveError, h1, h2, OlmEntry.zero]
    rw [hdec]
    refine ⟨rfl, ?_⟩
    simp only [marshalOlmEntry, toValidUTF8_ofString]
    exact JsonEq.refl _
  · subst hj
    have hdec : decodeOlmEntry (Json.obj [("type", Json.int n), ("body", Json.str body)])
        OlmEntry.zero = (⟨GoString.ofString body, ⟨n, h1, h2⟩⟩, none) := by
      simp [decodeOlmEntry, olmEntryStep, olmFieldOf_body, olmFieldOf_type, decodeString,
        decodeInt, saveError, h1, h2, OlmEntry.zero]
    rw [hdec]
    refine ⟨rfl, ?_⟩
    simp only [marshalOlmEntry, toValidUTF8_ofString]
    apply JsonEq.obj
    · exact List.Perm.swap _ _ _
    · intro k v₁ v₂ hv1 hv2
      simp only [List.mem_cons, List.mem_singleton, List.not_mem_nil, or_false,
        Prod.mk.injEq] at hv1 hv2
      rcases hv1 with ⟨hk, hv⟩ | ⟨hk, hv⟩ <;> rcases hv2 with ⟨hk', hv'⟩ | ⟨hk', hv'⟩
      · exact absurd (hk.symm.trans hk') (by decide)
      · rw [hv, hv']
        exact JsonEq.refl _
      · rw [hv, hv']
        exact JsonEq.refl _
      · exact absurd (hk.symm.trans hk') (by decide)

theorem eq_of_mem_of_nodup_keys {V : Type} (l : List (String × V))
    (hnd : (l.map Prod.fst).Nodup) (x y : String × V) (hx : x ∈ l) (hy : y ∈ l)
    (hk : x.1 = y.1) : x = y :=
  List.inj_on_of_nodup_map hnd hx hy hk

/-- A value of the pairwise wire shape nests at most two deep. -/
theorem isOlmCiphertextJson_depth (ct : Json) (h : IsOlmCiphertextJson ct) : ct.depth ≤ 2 := by
  obtain ⟨entries, hct, _, hshape⟩ := h
  subst hct
  rw [depth_obj]
  have : depthMembers entries ≤ 1 := by
    rw [depthMembers_le_iff]
    intro m hm
    obtain ⟨body, n, _, _, hj | hj⟩ := hshape m hm <;> rw [hj] <;>
      simp [Json.depth, depthMembers]
  omega

/-- A value of the pairwise wire shape decodes into a freshly made map
without error, and the map encodes to an equal JSON value. -/
theorem unmarshal_olm_shape (ct : Json) (h : IsOlmCiphertextJson ct) :
    (unmarshalOlmCiphertexts (Bytes.text ct) (some StrMap.empty)).2 = none ∧
    JsonEq (olmJson (unmarshalOlmCiphertexts (Bytes.text ct) (some StrMap.empty)).1) ct := by
  have hdepth : ¬ maxNestingDepth < ct.depth := by
    have := isOlmCiphertextJson_depth ct h
    simp only [maxNestingDepth]
    omega
  obtain ⟨entries, hct, hnd, hshape⟩ := h
  subst hct
  obtain ⟨h1, h2⟩ := olmMap_fold entries hnd (fun x hx => (decodeOlmEntry_shape x.2 (hshape x hx)).1)
  simp only [unmarshalOlmCiphertexts, if_neg hdepth, Option.getD_some, h1, olmJson, true_and]
  have hmapkey : (entries.map decodedEntry).map (fun p => p.1.toValidUTF8)
      = entries.map Prod.fst := by
    rw [List.map_map]
    apply List.map_congr_left
    intro x _
    simp only [Function.comp, decodedEntry, toValidUTF8_ofString]
  have hnd2 : (entries.map decodedEntry).Nodup := by
    apply List.Nodup.of_map (fun p => p.1.toValidUTF8)
    rw [hmapkey]
    exact hnd
  have hnd1 : (entries.foldl olmMapStep (StrMap.empty, none)).1.entries.Nodup :=
    (entries.foldl olmMapStep (StrMap.empty, none)).1.sorted.imp (fun {x y} hxy hxy2 => by
      rw [hxy2] at hxy
      exact lt_irrefl _ hxy)
  have hperm : (entries.foldl olmMapStep (StrMap.empty, none)).1.entries.Perm
      (entries.map decodedEntry) := (List.perm_ext_iff_of_nodup hnd1 hnd2).2 h2
  apply JsonEq.obj
  · rw [List.map_map]
    have := hperm.map (fun p => p.1.toValidUTF8)
    rw [hmapkey] at this
    exact this
  · intro k v₁ v₂ hv1 hv2
    obtain ⟨p, hp, hpe⟩ := List.mem_map.1 hv1
    obtain ⟨x, hx, hxp⟩ := List.mem_map.1 ((h2 p).1 hp)
    have hk : x.1 = k := by
      have := congrArg Prod.fst hpe
      simp only at this
      rw [← this, ← hxp]
      simp only [decodedEntry, toValidUTF8_ofString]
    have hxeq : x = (k, v₂) := eq_of_mem_of_nodup_keys entries hnd x (k, v₂) hx hv2 hk
    have hv : v₁ = marshalOlmEntry (decodeOlmEntry v₂ OlmEntry.zero).1 := by
      have := congrArg Prod.snd hpe
      simp only at this
      rw [← this, ← hxp, hxeq]
      rfl
    rw [hv]
    exact (decodeOlmEntry_shape v₂ (hshape (k, v₂) hv2)).2

/-! ## Codec: re-encode fidelity -/

/-- C9, counterexample: a pairwise payload with exactly the five members
whose entry has the integer `type` 9223372036854775808, one more than the
largest Go `int`: `UnmarshalJSON` returns a type error, and encoding what was
decoded writes `type` 0, so the bytes do not come back. -/
theorem reencode_fails_on_large_type :
    (EncryptedEventContent.zero.UnmarshalJSON (Bytes.text (Json.obj
      (envelopeMembers "m.olm.v1.curve25519-aes-sha2" "abc" "DEV1" "sess1"
        (Json.obj [("curve", Json.obj [("body", Json.str "x"),
          ("type", Json.int 9223372036854775808)])]))))).2 =
      some (JsonError.unmarshalTypeError JsonKind.number "event.OlmMessageType") ∧
    ((EncryptedEventContent.zero.UnmarshalJSON (Bytes.text (Json.obj
      (envelopeMembers "m.olm.v1.curve25519-aes-sha2" "abc" "DEV1" "sess1"
        (Json.obj [("curve", Json.obj [("body", Json.str "x"),
          ("type", Json.int 9223372036854775808)])]))))).1.MarshalJSON).2 =
      .ok (Bytes.text (Json.obj
        (envelopeMembers "m.olm.v1.curve25519-aes-sha2" "abc" "DEV1" "sess1"
          (Json.obj [("curve", Json.obj [("body", Json.str "x"), ("type", Json.int 0)])])))) := by
  have hdec : EncryptedEventContent.zero.UnmarshalJSON (Bytes.text (Json.obj
      (envelopeMembers "m.olm.v1.curve25519-aes-sha2" "abc" "DEV1" "sess1"
        (Json.obj [("curve", Json.obj [("body", Json.str "x"),
          ("type", Json.int 9223372036854775808)])])))) =
      ({ Algorithm := GoString.ofString "m.olm.v1.curve25519-aes-sha2",
         SenderKey := GoString.ofString "abc", DeviceID := GoString.ofString "DEV1",
         SessionID := GoString.ofString "sess1",
         Ciphertext := Bytes.text (Json.obj [("curve", Json.obj [("body", Json.str "x"),
           ("type", Json.int 9223372036854775808)])]),
         MegolmCiphertext := [],
         OlmCiphertext := some (StrMap.empty.insert (GoString.ofString "curve")
           ⟨GoString.ofString "x", OlmPreKeyMessage⟩) },
       some (JsonError.unmarshalTypeError JsonKind.number "event.OlmMessageType")) := by
    obtain ⟨hparse, henv⟩ := envelopeOf_perm _ "m.olm.v1.curve25519-aes-sha2" "abc" "DEV1"
      "sess1" (Json.obj [("curve", Json.obj [("body", Json.str "x"),
          ("type", Json.int 9223372036854775808)])]) (List.Perm.refl _) (by decide)
    rw [unmarshalJSON_obj _ _ hparse, henv]
    rfl
  rw [hdec]
  refine ⟨rfl, ?_⟩
  rw [marshalJSON_olm _ rfl]
  simp only [toValidUTF8_ofString]
  rfl

/-- C9, amended (re-encode fidelity): for a JSON object with exactly the
members `algorithm`, `sender_key`, `device_id`, `session_id` (strings) and
`ciphertext`, in any order, with a known algorithm tag and a ciphertext of that
tag's shape (a string for the group-session tag; for the pairwise tag an object
with distinct names mapping to `body`, a string, and `type`, an integer in the
range of Go's `int`), `UnmarshalJSON` into a fresh value returns no error,
`MarshalJSON` of the decoded value returns bytes, and these are a JSON object
equal to the input up to the order of members. -/
theorem reencode_fidelity (members : List (String × Json)) (a sk d sid : String) (ct : Json)
    (hmem : members.Perm (envelopeMembers a sk d sid ct))
    (hshape : (GoString.ofString a = AlgorithmMegolmV1 ∧ ∃ s, ct = Json.str s) ∨
              (GoString.ofString a = AlgorithmOlmV1 ∧ IsOlmCiphertextJson ct)) :
    ∃ out,
      (EncryptedEventContent.zero.UnmarshalJSON (Bytes.text (Json.obj members))).2 = none ∧
      ((EncryptedEventContent.zero.UnmarshalJSON (Bytes.text (Json.obj members))).1.MarshalJSON).2
        = .ok (Bytes.text out) ∧
      JsonEq out (Json.obj members) := by
  have hd : ct.depth < maxNestingDepth := by
    rcases hshape with ⟨_, s, hs⟩ | ⟨_, hct⟩
    · rw [hs]
      simp [Json.depth, maxNestingDepth]
    · have := isOlmCiphertextJson_depth ct hct
      simp only [maxNestingDepth]
      omega
  obtain ⟨hparse, henv⟩ := envelopeOf_perm members a sk d sid ct hmem hd
  rw [unmarshalJSON_obj members _ hparse, henv]
  rcases hshape with ⟨ha, s, hs⟩ | ⟨ha, hct⟩
  · subst hs
    have hno : ¬ GoString.ofString a = AlgorithmOlmV1 := by
      rw [ha]
      exact algorithm_tags_differ
    simp only [if_neg hno, if_pos ha, unmarshalString_scalar (Json.str s) _ rfl, decodeString]
    refine ⟨Json.obj (envelopeMembers a sk d sid (Json.str s)), trivial, ?_, ?_⟩
    · rw [marshalJSON_megolm _ ha]
      simp only [toValidUTF8_ofString]
    · exact jsonEq_envelope members _ sk d sid _ _ hmem (JsonEq.refl _)
  · obtain ⟨h1, h2⟩ := unmarshal_olm_shape ct hct
    simp only [if_pos ha, h1]
    refine ⟨Json.obj (envelopeMembers a sk d sid (olmJson
      (unmarshalOlmCiphertexts (Bytes.text ct) (some StrMap.empty)).1)), trivial, ?_, ?_⟩
    · rw [marshalJSON_olm _ ha]
      simp only [toValidUTF8_ofString]
    · exact jsonEq_envelope members _ sk d sid _ _ hmem h2

theorem reencode_fidelity_witness :
    (∃ out,
      (EncryptedEventContent.zero.UnmarshalJSON (Bytes.text (Json.obj
        [("ciphertext", Json.str "opaqueblob"), ("algorithm", Json.str "m.megolm.v1.aes-sha2"),
         ("sender_key", Json.str "abc"), ("device_id", Json.str "DEV1"),
         ("session_id", Json.str "sess1")]))).2 = none ∧
      ((EncryptedEventContent.zero.UnmarshalJSON (Bytes.text (Json.obj
        [("ciphertext", Json.str "opaqueblob"), ("algorithm", Json.str "m.megolm.v1.aes-sha2"),
         ("sender_key", Json.str "abc"), ("device_id", Json.str "DEV1"),
         ("session_id", Json.str "sess1")]))).1.MarshalJSON).2 = .ok (Bytes.text out) ∧
      JsonEq out (Json.obj
        [("ciphertext", Json.str "opaqueblob"), ("algorithm", Json.str "m.megolm.v1.aes-sha2"),
         ("sender_key", Json.str "abc"), ("device_id", Json.str "DEV1"),
         ("session_id", Json.str "sess1")])) ∧
    (∃ out,
      (EncryptedEventContent.zero.UnmarshalJSON (Bytes.text (Json.obj
        (envelopeMembers "m.olm.v1.curve25519-aes-sha2" "abc" "DEV1" "sess1"
          (Json.obj [("curveB", Json.obj [("type", Json.int 1), ("body", Json.str "y")]),
                     ("curveA", Json.obj [("body", Json.str "x"), ("type", Json.int 0)])]))))).2
        = none ∧
      ((EncryptedEventContent.zero.UnmarshalJSON (Bytes.text (Json.obj
        (envelopeMembers "m.olm.v1.curve25519-aes-sha2" "abc" "DEV1" "sess1"
          (Json.obj [("curveB", Json.obj [("type", Json.int 1), ("body", Json.str "y")]),
                     ("curveA", Json.obj [("body", Json.str "x"), ("type", Json.int 0)])]))))).1.MarshalJSON).2
        = .ok (Bytes.text out) ∧
      JsonEq out (Json.obj
        (envelopeMembers "m.olm.v1.curve25519-aes-sha2" "abc" "DEV1" "sess1"
          (Json.obj [("curveB", Json.obj [("type", Json.int 1), ("body", Json.str "y")]),
                     ("curveA", Json.obj [("body", Json.str "x"), ("type", Json.int 0)])])))) :=
  ⟨reencode_fidelity
    [("ciphertext", Json.str "opaqueblob"), ("algorithm", Json.str "m.megolm.v1.aes-sha2"),
     ("sender_key", Json.str "abc"), ("device_id", Json.str "DEV1"),
     ("session_id", Json.str "sess1")]
    "m.megolm.v1.aes-sha2" "abc" "DEV1" "sess1" (Json.str "opaqueblob")
    (by
      simp only [envelopeMembers]
      exact (@List.perm_middle _ ("ciphertext", Json.str "opaqueblob")
        [("algorithm", Json.str "m.megolm.v1.aes-sha2"),
         ("sender_key", Json.str "abc"), ("device_id", Json.str "DEV1"),
         ("session_id", Json.str "sess1")] []).symm)
    (Or.inl ⟨rfl, _, rfl⟩),
   reencode_fidelity _ "m.olm.v1.curve25519-aes-sha2" "abc" "DEV1" "sess1"
    (Json.obj [("curveB", Json.obj [("type", Json.int 1), ("body", Json.str "y")]),
               ("curveA", Json.obj [("body", Json.str "x"), ("type", Json.int 0)])])
    (List.Perm.refl _)
    (Or.inr ⟨rfl, _, rfl, by decide, by
      intro p hp
      simp only [List.mem_cons, List.mem_singleton, List.not_mem_nil, or_false] at hp
      rcases hp with h | h
      · subst h
        exact ⟨"y", 1, by decide, by decide, Or.inr rfl⟩
      · subst h
        exact ⟨"x", 0, by decide, by decide, Or.inl rfl⟩⟩)⟩

/-! ## Room state store: lemmas -/

theorem setMap_same (maps : Ref → EventMap) (r : Ref) (m : EventMap) :
    setMap maps r m r = m := by
  simp [setMap]

theorem setMap_other (maps : Ref → EventMap) (r : Ref) (m : EventMap) (x : Ref) (h : x ≠ r) :
    setMap maps r m x = maps x := by
  simp [setMap, h]

/-- The address `make` chooses lies beyond every address the state map holds. -/
theorem freshRef_gt (a : AList (fun _ : EventType => StateEventMap)) (t : EventType) (r : Ref)
    (h : a.lookup t = some (some r)) : r < freshRef (some a) := by
  have hmem : (⟨t, some r⟩ : Sigma (fun _ : EventType => StateEventMap)) ∈ a.entries :=
    AList.mem_lookup_iff.1 h
  have hgen : ∀ (l : List (Sigma (fun _ : EventType => StateEventMap))),
      (⟨t, some r⟩ : Sigma (fun _ : EventType => StateEventMap)) ∈ l →
      r + 1 ≤ l.foldr (fun p acc => max (nextRef p.2) acc) 0 := by
    intro l
    induction l with
    | nil =>
      intro h
      simp at h
    | cons hd tl ih =>
      intro h
      rcases List.mem_cons.1 h with h | h
      · subst h
        simp only [List.foldr_cons]
        exact le_max_left _ _
      · simp only [List.foldr_cons]
        exact le_trans (ih h) (le_max_right _ _)
  exact hgen a.entries hmem

theorem getStateEvent_some (id : String) (a : AList (fun _ : EventType => StateEventMap))
    (maps : Ref → EventMap) (T : EventType) (K : String) :
    Room.GetStateEvent { ID := id, State := some a, Maps := maps } T K =
      match a.lookup T with
      | some (some r) => ((maps r).lookup K).getD none
      | _ => none := by
  simp only [Room.GetStateEvent, Room.GetStateEventCall, GoMap.index]
  cases h : a.lookup T with
  | none => rfl
  | some inner =>
    cases inner with
    | none => rfl
    | some r => rfl

theorem getStateEvent_nil (id : String) (maps : Ref → EventMap) (T : EventType) (K : String) :
    Room.GetStateEvent { ID := id, State := none, Maps := maps } T K = none := rfl

theorem updateState_fresh (id : String) (a : AList (fun _ : EventType => StateEventMap))
    (maps : Ref → EventMap) (e : Event) (k : String)
    (hl : a.lookup e.Typ = none) (hk : e.StateKey = some k) :
    Room.UpdateState { ID := id, State := some a, Maps := maps } (some e) =
      ({ ID := id, State := some (a.insert e.Typ (some (freshRef (some a)))),
         Maps := setMap (setMap maps (freshRef (some a)) ∅) (freshRef (some a))
           (AList.insert k (some e) ∅) }, none) := by
  simp [Room.UpdateState, GoMap.index, GoMap.assign, hl, hk, setMap_same]

theorem updateState_fresh_nokey (id : String) (a : AList (fun _ : EventType => StateEventMap))
    (maps : Ref → EventMap) (e : Event)
    (hl : a.lookup e.Typ = none) (hk : e.StateKey = none) :
    Room.UpdateState { ID := id, State := some a, Maps := maps } (some e) =
      ({ ID := id, State := some (a.insert e.Typ (some (freshRef (some a)))),
         Maps := setMap maps (freshRef (some a)) ∅ }, some Panic.nilPointerDereference) := by
  simp [Room.UpdateState, GoMap.index, GoMap.assign, hl, hk]

theorem updateState_existing (id : String) (a : AList (fun _ : EventType => StateEventMap))
    (maps : Ref → EventMap) (e : Event) (k : String) (r : Ref)
    (hl : a.lookup e.Typ = some (some r)) (hk : e.StateKey = some k) :
    Room.UpdateState { ID := id, State := some a, Maps := maps } (some e) =
      ({ ID := id, State := some a,
         Maps := setMap maps r ((maps r).insert k (some e)) }, none) := by
  simp [Room.UpdateState, GoMap.index, GoMap.assign, hl, hk]

theorem updateState_nil_state (id : String) (maps : Ref → EventMap) (e : Event) :
    Room.UpdateState { ID := id, State := none, Maps := maps } (some e) =
      ({ ID := id, State := none, Maps := maps }, some Panic.assignmentToNilMap) := by
  simp [Room.UpdateState, GoMap.index, GoMap.assign]

theorem updateState_nil_inner (id : String) (a : AList (fun _ : EventType => StateEventMap))
    (maps : Ref → EventMap) (e : Event) (hl : a.lookup e.Typ = some none) :
    (Room.UpdateState { ID := id, State := some a, Maps := maps } (some e)).1 =
      { ID := id, State := some a, Maps := maps } ∧
    (Room.UpdateState { ID := id, State := some a, Maps := maps } (some e)).2 ≠ none := by
  cases hk : e.StateKey <;> simp [Room.UpdateState, GoMap.index, GoMap.assign, hl, hk]

theorem updateState_existing_nokey (id : String)
    (a : AList (fun _ : EventType => StateEventMap)) (maps : Ref → EventMap) (e : Event)
    (r : Ref) (hl : a.lookup e.Typ = some (some r)) (hk : e.StateKey = none) :
    Room.UpdateState { ID := id, State := some a, Maps := maps } (some e) =
      ({ ID := id, State := some a, Maps := maps }, some Panic.nilPointerDereference) := by
  simp [Room.UpdateState, GoMap.index, GoMap.assign, hl, hk]

/-- The state map after an `UpdateState` call: as before, or with a fresh
address stored under the event's type when it held nothing for it. -/
theorem updateState_state (room : Room) (evt : Option Event) :
    (room.UpdateState evt).1.State = room.State ∨
    ∃ a e, evt = some e ∧ room.State = some a ∧ a.lookup e.Typ = none ∧
      (room.UpdateState evt).1.State = some (a.insert e.Typ (some (freshRef (some a)))) := by
  cases evt with
  | none => exact Or.inl rfl
  | some e =>
    obtain ⟨id, st, maps⟩ := room
    cases st with
    | none =>
      rw [updateState_nil_state]
      exact Or.inl rfl
    | some a =>
      cases hl : a.lookup e.Typ with
      | none =>
        refine Or.inr ⟨a, e, rfl, rfl, hl, ?_⟩
        cases hk : e.StateKey with
        | none => rw [updateState_fresh_nokey id a maps e hl hk]
        | some k => rw [updateState_fresh id a maps e k hl hk]
      | some inner =>
        refine Or.inl ?_
        cases inner with
        | none => rw [(updateState_nil_inner id a maps e hl).1]
        | some r =>
          cases hk : e.StateKey with
          | none => rw [updateState_existing_nokey id a maps e r hl hk]
          | some k => rw [updateState_existing id a maps e k r hl hk]

theorem newRoom_initialised (roomID : String) : (NewRoom roomID).Initialised := by
  refine ⟨by simp [NewRoom], ?_⟩
  intro t
  simp [NewRoom, GoMap.index]

theorem newRoom_noSharing (roomID : String) : (NewRoom roomID).NoSharing := by
  intro t₁ t₂ r h
  simp [NewRoom, GoMap.index] at h

/-- `UpdateState` keeps the state map initialised, whatever it is called with
and whether it returns or panics. -/
theorem updateState_initialised (room : Room) (evt : Option Event)
    (hinit : room.Initialised) : (room.UpdateState evt).1.Initialised := by
  rcases updateState_state room evt with h | ⟨a, e, _, hst, _, h⟩
  · unfold Room.Initialised
    rw [h]
    exact hinit
  · unfold Room.Initialised
    rw [h]
    refine ⟨by simp, ?_⟩
    intro t
    have hold := hinit.2 t
    rw [hst] at hold
    simp only [GoMap.index] at hold ⊢
    by_cases ht : t = e.Typ
    · subst ht
      rw [AList.lookup_insert]
      simp
    · rw [AList.lookup_insert_ne ht]
      exact hold

/-- `UpdateState` never stores one map object under two event types. -/
theorem updateState_noSharing (room : Room) (evt : Option Event)
    (hns : room.NoSharing) : (room.UpdateState evt).1.NoSharing := by
  rcases updateState_state room evt with h | ⟨a, e, _, hst, _, h⟩
  · unfold Room.NoSharing
    rw [h]
    exact hns
  · unfold Room.NoSharing at hns ⊢
    rw [h]
    rw [hst] at hns
    simp only [GoMap.index] at hns ⊢
    intro t₁ t₂ r h1 h2
    by_cases ht1 : t₁ = e.Typ
    · by_cases ht2 : t₂ = e.Typ
      · rw [ht1, ht2]
      · rw [ht1, AList.lookup_insert] at h1
        rw [AList.lookup_insert_ne ht2] at h2
        have hr : freshRef (some a) = r := Option.some.inj (Option.some.inj h1)
        have := freshRef_gt a t₂ r h2
        rw [hr] at this
        exact absurd this (lt_irrefl _)
    · by_cases ht2 : t₂ = e.Typ
      · rw [ht2, AList.lookup_insert] at h2
        rw [AList.lookup_insert_ne ht1] at h1
        have hr : freshRef (some a) = r := Option.some.inj (Option.some.inj h2)
        have := freshRef_gt a t₁ r h1
        rw [hr] at this
        exact absurd this (lt_irrefl _)
      · rw [AList.lookup_insert_ne ht1] at h1
        rw [AList.lookup_insert_ne ht2] at h2
        exact hns t₁ t₂ r h1 h2

theorem reachable_initialised (room : Room) (h : Reachable room) : room.Initialised := by
  induction h with
  | new roomID => exact newRoom_initialised roomID
  | update room evt _ ih => exact updateState_initialised room evt ih

theorem reachable_noSharing (room : Room) (h : Reachable room) : room.NoSharing := by
  induction h with
  | new roomID => exact newRoom_noSharing roomID
  | update room evt _ ih => exact updateState_noSharing room evt ih

/-- On an initialised state map `UpdateState` returns for an event that
carries a state key. -/
theorem updateState_returns (room : Room) (e : Event) (k : String)
    (hinit : room.Initialised) (hk : e.StateKey = some k) :
    (room.UpdateState (some e)).2 = none := by
  obtain ⟨id, st, maps⟩ := room
  obtain ⟨hst, hinner⟩ := hinit
  cases st with
  | none => exact absurd rfl hst
  | some a =>
    simp only [GoMap.index] at hinner
    cases hl : a.lookup e.Typ with
    | none => rw [updateState_fresh id a maps e k hl hk]
    | some inner =>
      cases inner with
      | none => exact absurd hl (hinner e.Typ)
      | some r => rw [updateState_existing id a maps e k r hl hk]

/-- When `UpdateState` returns for an event with state key `k`, the event is
what `GetStateEvent` returns for its type and `k`. -/
theorem updateState_stores (room : Room) (e : Event) (k : String)
    (hk : e.StateKey = some k) (hret : (room.UpdateState (some e)).2 = none) :
    (room.UpdateState (some e)).1.GetStateEvent e.Typ k = some e := by
  obtain ⟨id, st, maps⟩ := room
  cases st with
  | none =>
    rw [updateState_nil_state] at hret
    simp at hret
  | some a =>
    cases hl : a.lookup e.Typ with
    | none =>
      rw [updateState_fresh id a maps e k hl hk, getStateEvent_some, AList.lookup_insert]
      simp only [setMap_same, AList.lookup_insert, Option.getD_some]
    | some inner =>
      cases inner with
      | none => exact absurd hret (updateState_nil_inner id a maps e hl).2
      | some r =>
        rw [updateState_existing id a maps e k r hl hk, getStateEvent_some, hl]
        simp only [setMap_same, AList.lookup_insert, Option.getD_some]

/-- `UpdateState` does not change what `GetStateEvent` returns for a pair other
than the event's own, whether the call returns or panics, unless the pair has
the event's state key and its type holds the very map object that the event's
type holds. -/
theorem updateState_frame (room : Room) (e : Event) (T : EventType) (K : String)
    (h : ¬ (T = e.Typ ∧ e.StateKey = some K))
    (hown : T ≠ e.Typ → e.StateKey = some K →
      ∀ r, room.State.index T = some (some r) → room.State.index e.Typ ≠ some (some r)) :
    (room.UpdateState (some e)).1.GetStateEvent T K = room.GetStateEvent T K := by
  obtain ⟨id, st, maps⟩ := room
  cases st with
  | none => rw [updateState_nil_state]
  | some a =>
    simp only [GoMap.index] at hown
    cases hl : a.lookup e.Typ with
    | none =>
      cases hk : e.StateKey with
      | none =>
        rw [updateState_fresh_nokey id a maps e hl hk, getStateEvent_some, getStateEvent_some]
        by_cases ht : T = e.Typ
        · subst ht
          rw [AList.lookup_insert, hl]
          simp only [setMap_same, AList.lookup_empty, Option.getD_none]
        · rw [AList.lookup_insert_ne ht]
          cases hT : a.lookup T with
          | none => rfl
          | some inner =>
            cases inner with
            | none => rfl
            | some r =>
              simp only
              rw [setMap_other _ _ _ _ (ne_of_lt (freshRef_gt a T r hT))]
      | some k =>
        rw [updateState_fresh id a maps e k hl hk, getStateEvent_some, getStateEvent_some]
        by_cases ht : T = e.Typ
        · subst ht
          have hK : K ≠ k := fun hKk => h ⟨rfl, by rw [hk, hKk]⟩
          rw [AList.lookup_insert, hl]
          simp only [setMap_same, AList.lookup_insert_ne hK, AList.lookup_empty,
            Option.getD_none]
        · rw [AList.lookup_insert_ne ht]
          cases hT : a.lookup T with
          | none => rfl
          | some inner =>
            cases inner with
            | none => rfl
            | some r =>
              simp only
              rw [setMap_other _ _ _ _ (ne_of_lt (freshRef_gt a T r hT)),
                setMap_other _ _ _ _ (ne_of_lt (freshRef_gt a T r hT))]
    | some inner =>
      cases inner with
      | none => rw [(updateState_nil_inner id a maps e hl).1]
      | some r₀ =>
        cases hk : e.StateKey with
        | none => rw [updateState_existing_nokey id a maps e r₀ hl hk]
        | some k =>
          rw [updateState_existing id a maps e k r₀ hl hk, getStateEvent_some,
            getStateEvent_some]
          by_cases ht : T = e.Typ
          · subst ht
            have hK : K ≠ k := fun hKk => h ⟨rfl, by rw [hk, hKk]⟩
            rw [hl]
            simp only [setMap_same, AList.lookup_insert_ne hK]
          · cases hT : a.lookup T with
            | none => rfl
            | some inner =>
              cases inner with
              | none => rfl
              | some r =>
                simp only
                by_cases hr : r = r₀
                · subst hr
                  have hK : K ≠ k := fun hKk =>
                    hown ht (by rw [hk, hKk]) r hT hl
                  simp only [setMap_same, AList.lookup_insert_ne hK]
                · rw [setMap_other _ _ _ _ hr]

/-- The effect of one `UpdateState` call with a state event on a room made by
`NewRoom` and `UpdateState` calls: the call returns, the state map stays as
such calls make it, and exactly the slot of the event changes. -/
theorem updateState_spec (room : Room) (e : Event) (k : String)
    (hinit : room.Initialised) (hns : room.NoSharing) (hk : e.StateKey = some k) :
    (room.UpdateState (some e)).2 = none ∧
    (room.UpdateState (some e)).1.Initialised ∧
    (room.UpdateState (some e)).1.NoSharing ∧
    ∀ T K, (room.UpdateState (some e)).1.GetStateEvent T K =
      if T = e.Typ ∧ K = k then some e else room.GetStateEvent T K := by
  have hret := updateState_returns room e k hinit hk
  refine ⟨hret, updateState_initialised room _ hinit, updateState_noSharing room _ hns, ?_⟩
  intro T K
  by_cases hp : T = e.Typ ∧ K = k
  · rw [if_pos hp]
    obtain ⟨hT, hK⟩ := hp
    subst hT
    subst hK
    exact updateState_stores room e K hk hret
  · rw [if_neg hp]
    apply updateState_frame
    · rintro ⟨hT, hK⟩
      rw [hk] at hK
      exact hp ⟨hT, (Option.some.inj hK).symm⟩
    · intro ht _ r h1 h2
      exact ht (hns T e.Typ r h1 h2)

theorem newRoom_getStateEvent (roomID : String) (T : EventType) (K : String) :
    (NewRoom roomID).GetStateEvent T K = none := by
  simp [NewRoom, Room.GetStateEvent, Room.GetStateEventCall, GoMap.index]

theorem lastFor_cons (e : Event) (rest : List Event) (T : EventType) (K : String) :
    lastFor (e :: rest) T K =
      match lastFor rest T K with
      | some x => some x
      | none => if e.Typ = T ∧ e.StateKey = some K then some e else none := by
  simp only [lastFor, List.reverse_cons, List.find?_append]
  cases h : List.find? (fun e => decide (e.Typ = T ∧ e.StateKey = some K)) rest.reverse with
  | some x => simp
  | none =>
    by_cases hp : e.Typ = T ∧ e.StateKey = some K
    · simp [List.find?, hp]
    · simp [List.find?, hp]

/-- Applying a sequence of state events to a room made by `NewRoom` and
`UpdateState` calls: every call returns and each slot holds the last event
applied to it, or what it held before when the sequence has no event for it. -/
theorem applyAll_spec (evts : List Event) :
    ∀ (room : Room), room.Initialised → room.NoSharing → (∀ e ∈ evts, e.StateKey ≠ none) →
      (room.applyAll evts).2 = none ∧ (room.applyAll evts).1.Initialised ∧
      ∀ T K, (room.applyAll evts).1.GetStateEvent T K =
        match lastFor evts T K with
        | some e => some e
        | none => room.GetStateEvent T K := by
  induction evts with
  | nil =>
    intro room hinit _ _
    exact ⟨rfl, hinit, fun T K => rfl⟩
  | cons e rest ih =>
    intro room hinit hns hkeys
    have hek : e.StateKey ≠ none := hkeys e (List.mem_cons_self _ _)
    obtain ⟨k, hk⟩ := Option.ne_none_iff_exists'.1 hek
    obtain ⟨hret, hinit1, hns1, hget⟩ := updateState_spec room e k hinit hns hk
    have hstep : room.applyAll (e :: rest) = (room.UpdateState (some e)).1.applyAll rest := by
      rw [Room.applyAll]
      generalize hr : room.UpdateState (some e) = r at hret
      obtain ⟨r1, r2⟩ := r
      simp only at hret
      subst hret
      rfl
    obtain ⟨h1, h2, h3⟩ := ih (room.UpdateState (some e)).1 hinit1 hns1
      (fun x hx => hkeys x (List.mem_cons_of_mem _ hx))
    rw [hstep]
    refine ⟨h1, h2, ?_⟩
    intro T K
    rw [h3 T K, lastFor_cons, hget T K]
    cases lastFor rest T K with
    | some x => rfl
    | none =>
      by_cases hp : T = e.Typ ∧ K = k
      · obtain ⟨hT, hK⟩ := hp
        subst hT
        subst hK
        simp [hk]
      · have hp2 : ¬ (e.Typ = T ∧ e.StateKey = some K) := by
          rintro ⟨hT, hK⟩
          rw [hk] at hK
          exact hp ⟨hT.symm, (Option.some.inj hK).symm⟩
        simp [hp, hp2]

/-- A sequence of `UpdateState` calls none of which is for the pair `(T, K)`
leaves what `GetStateEvent T K` returns as it was, in a room where no map
object is stored under two event types. -/
theorem applyAll_frame (T : EventType) (K : String) (evts : List Event) :
    ∀ (room : Room), room.NoSharing →
      (∀ e ∈ evts, ¬ (e.Typ = T ∧ e.StateKey = some K)) →
      (room.applyAll evts).1.GetStateEvent T K = room.GetStateEvent T K := by
  induction evts with
  | nil =>
    intro room _ _
    rfl
  | cons e rest ih =>
    intro room hns h
    have he : ¬ (T = e.Typ ∧ e.StateKey = some K) := fun hx =>
      h e (List.mem_cons_self _ _) ⟨hx.1.symm, hx.2⟩
    have hframe := updateState_frame room e T K he
      (fun ht _ r h1 h2 => ht (hns T e.Typ r h1 h2))
    have hns1 := updateState_noSharing room (some e) hns
    rw [Room.applyAll]
    generalize room.UpdateState (some e) = r at hframe hns1
    obtain ⟨r1, r2⟩ := r
    simp only at hframe hns1
    cases r2 with
    | none =>
      simp only
      rw [ih r1 hns1 (fun x hx => h x (List.mem_cons_of_mem _ hx)), hframe]
    | some p =>
      simp only
      exact hframe

theorem getStateEvent_iff_stores (room : Room) (T : EventType) (K : String) (e : Event) :
    room.GetStateEvent T K = some e ↔ room.Stores T K e := by
  obtain ⟨id, st, maps⟩ := room
  cases st with
  | none =>
    constructor
    · intro h
      rw [getStateEvent_nil] at h
      simp at h
    · rintro ⟨a, r, h, _⟩
      simp at h
  | some a =>
    rw [getStateEvent_some]
    cases hl : a.lookup T with
    | none =>
      constructor
      · intro h
        simp at h
      · rintro ⟨a', r, h1, h2, _⟩
        simp only [Option.some.injEq] at h1
        subst h1
        rw [hl] at h2
        simp at h2
    | some inner =>
      cases inner with
      | none =>
        constructor
        · intro h
          simp at h
        · rintro ⟨a', r, h1, h2, _⟩
          simp only [Option.some.injEq] at h1
          subst h1
          rw [hl] at h2
          simp at h2
      | some r =>
        simp only
        constructor
        · intro h
          refine ⟨a, r, rfl, hl, ?_⟩
          cases hb : (maps r).lookup K with
          | none =>
            rw [hb] at h
            simp at h
          | some v =>
            rw [hb] at h
            simp only [Option.getD_some] at h
            rw [h]
        · rintro ⟨a', r', h1, h2, h3⟩
          simp only [Option.some.injEq] at h1
          subst h1
          rw [hl] at h2
          simp only [Option.some.injEq] at h2
          subst h2
          simp only at h3
          rw [h3]
          rfl

/-- A call of `GetMembershipState`: no panic, the room as it was, and the
`membership` string of the stored membership event, `MembershipLeave` when
there is none. -/
theorem getMembershipStateCall_eq (room : Room) (U : String) :
    room.GetMembershipStateCall U =
      (room, none,
        match room.GetStateEvent StateMember U with
        | none => MembershipLeave
        | some evt =>
          match GoMap.index evt.Content.Raw "membership" with
          | some (Json.str membership) => membership
          | _ => MembershipLeave) := by
  have hcall : room.GetStateEventCall StateMember U =
      (room, none, room.GetStateEvent StateMember U) := rfl
  simp only [Room.GetMembershipStateCall, hcall]
  cases room.GetStateEvent StateMember U with
  | none => rfl
  | some evt =>
    simp only
    cases GoMap.index evt.Content.Raw "membership" with
    | none => rfl
    | some j => cases j <;> rfl

theorem getMembershipState_none (room : Room) (U : String)
    (h : room.GetStateEvent StateMember U = none) :
    room.GetMembershipState U = MembershipLeave := by
  simp only [Room.GetMembershipState, getMembershipStateCall_eq, h]

theorem getMembershipState_some (room : Room) (U : String) (evt : Event)
    (h : room.GetStateEvent StateMember U = some evt) :
    room.GetMembershipState U =
      match GoMap.index evt.Content.Raw "membership" with
      | some (Json.str membership) => membership
      | _ => MembershipLeave := by
  simp only [Room.GetMembershipState, getMembershipStateCall_eq, h]

/-! ## Room state store: the properties of the specification -/

/-- C2 (latest wins): after the state events of a finite sequence, each
carrying a state key, are applied in order with `UpdateState` to a room made
by `NewRoom`, every call has returned and `GetStateEvent T K` is the last event
of the sequence with type `T` and state key `K`, and nil when there is none. -/
theorem latest_wins_from_newRoom (roomID : String) (evts : List Event)
    (hkeys : ∀ e ∈ evts, e.StateKey ≠ none) (T : EventType) (K : String) :
    ((NewRoom roomID).applyAll evts).2 = none ∧
    ((NewRoom roomID).applyAll evts).1.GetStateEvent T K = lastFor evts T K := by
  obtain ⟨h1, _, h3⟩ := applyAll_spec evts (NewRoom roomID) (newRoom_initialised roomID)
    (newRoom_noSharing roomID) hkeys
  refine ⟨h1, ?_⟩
  rw [h3 T K, newRoom_getStateEvent]
  cases lastFor evts T K <;> rfl

theorem latest_wins_from_newRoom_witness :
    ((NewRoom "!room:example.org").applyAll
        [sampleEvent "@a:example.org" "join", sampleEvent "@b:example.org" "join",
         sampleEvent "@a:example.org" "leave"]).2 = none ∧
    ((NewRoom "!room:example.org").applyAll
        [sampleEvent "@a:example.org" "join", sampleEvent "@b:example.org" "join",
         sampleEvent "@a:example.org" "leave"]).1.GetStateEvent
        StateMember "@a:example.org" = some (sampleEvent "@a:example.org" "leave") :=
  latest_wins_from_newRoom "!room:example.org"
    [sampleEvent "@a:example.org" "join", sampleEvent "@b:example.org" "join",
     sampleEvent "@a:example.org" "leave"]
    (by simp [sampleEvent]) StateMember "@a:example.org"

/-- C3 (last write wins): on a room with an initialised state map, whenever
`UpdateState(A)` and then `UpdateState(B)` return for two state events of the
same type `T` and state key `K`, `GetStateEvent T K` is `B`, and so is not `A`
when `A` differs from `B`; and both calls do return when no map stored in the
state map is nil, as in every room made by `NewRoom` and `UpdateState`. -/
theorem last_write_wins (room : Room) (A B : Event) (T : EventType) (K : String)
    (hstate : room.State ≠ none)
    (_hAT : A.Typ = T) (hAK : A.StateKey = some K)
    (hBT : B.Typ = T) (hBK : B.StateKey = some K) :
    ((∀ t, room.State.index t ≠ some none) →
      (room.UpdateState (some A)).2 = none ∧
      ((room.UpdateState (some A)).1.UpdateState (some B)).2 = none) ∧
    ((room.UpdateState (some A)).2 = none →
      ((room.UpdateState (some A)).1.UpdateState (some B)).2 = none →
      ((room.UpdateState (some A)).1.UpdateState (some B)).1.GetStateEvent T K = some B ∧
      (A ≠ B →
        ((room.UpdateState (some A)).1.UpdateState (some B)).1.GetStateEvent T K ≠ some A)) := by
  constructor
  · intro hinner
    have ha1 := updateState_returns room A K ⟨hstate, hinner⟩ hAK
    have ha2 := updateState_initialised room (some A) ⟨hstate, hinner⟩
    exact ⟨ha1, updateState_returns (room.UpdateState (some A)).1 B K ha2 hBK⟩
  · intro _ hb
    have hget := updateState_stores (room.UpdateState (some A)).1 B K hBK hb
    rw [hBT] at hget
    refine ⟨hget, ?_⟩
    intro hne h
    rw [hget] at h
    exact hne (Option.some.inj h).symm

theorem last_write_wins_witness :
    ((∀ t, (NewRoom "!r").State.index t ≠ some none) →
      ((NewRoom "!r").UpdateState (some (sampleEvent "@a" "join"))).2 = none ∧
      (((NewRoom "!r").UpdateState (some (sampleEvent "@a" "join"))).1.UpdateState
        (some (sampleEvent "@a" "leave"))).2 = none) ∧
    (((NewRoom "!r").UpdateState (some (sampleEvent "@a" "join"))).2 = none →
      (((NewRoom "!r").UpdateState (some (sampleEvent "@a" "join"))).1.UpdateState
        (some (sampleEvent "@a" "leave"))).2 = none →
      (((NewRoom "!r").UpdateState (some (sampleEvent "@a" "join"))).1.UpdateState
        (some (sampleEvent "@a" "leave"))).1.GetStateEvent StateMember "@a" =
        some (sampleEvent "@a" "leave") ∧
      (sampleEvent "@a" "join" ≠ sampleEvent "@a" "leave" →
        (((NewRoom "!r").UpdateState (some (sampleEvent "@a" "join"))).1.UpdateState
          (some (sampleEvent "@a" "leave"))).1.GetStateEvent StateMember "@a" ≠
          some (sampleEvent "@a" "join"))) :=
  last_write_wins (NewRoom "!r") (sampleEvent "@a" "join") (sampleEvent "@a" "leave")
    StateMember "@a" (by simp [NewRoom]) rfl rfl rfl rfl

/-- C4, counterexample: a room whose state map is initialised and holds one
map object under the two types `StateMember` and `sampleType`. `UpdateState`
of a `StateMember` event with state key `@a` returns, and `GetStateEvent` for
the other pair `(sampleType, @a)`, which returned nil before the call, returns
the event after it: the write went through the shared map object. -/
theorem updateState_writes_through_shared_map :
    aliasedRoom.State ≠ none ∧
    (∀ t, aliasedRoom.State.index t ≠ some none) ∧
    (sampleEvent "@a" "join").Typ = StateMember ∧
    (sampleEvent "@a" "join").StateKey = some "@a" ∧
    (sampleType, "@a") ≠ (StateMember, "@a") ∧
    aliasedRoom.GetStateEvent sampleType "@a" = none ∧
    (aliasedRoom.UpdateState (some (sampleEvent "@a" "join"))).2 = none ∧
    (aliasedRoom.UpdateState (some (sampleEvent "@a" "join"))).1.GetStateEvent sampleType "@a"
      = some (sampleEvent "@a" "join") := by
  have hne : StateMember ≠ sampleType := by decide
  have hl : ((AList.insert StateMember (some 0) ∅ :
      AList (fun _ : EventType => StateEventMap)).insert sampleType (some 0)).lookup
      (sampleEvent "@a" "join").Typ = some (some 0) := by
    show AList.lookup StateMember _ = _
    rw [AList.lookup_insert_ne hne, AList.lookup_insert]
  refine ⟨by simp [aliasedRoom], ?_, rfl, rfl, by decide, ?_, ?_, ?_⟩
  · intro t h
    simp only [aliasedRoom, GoMap.index] at h
    by_cases h2 : t = sampleType
    · rw [h2, AList.lookup_insert] at h
      simp at h
    · rw [AList.lookup_insert_ne h2] at h
      by_cases h1 : t = StateMember
      · rw [h1, AList.lookup_insert] at h
        simp at h
      · rw [AList.lookup_insert_ne h1] at h
        simp at h
  · simp only [aliasedRoom]
    rw [getStateEvent_some, AList.lookup_insert]
    rfl
  · simp only [aliasedRoom]
    rw [updateState_existing _ _ _ _ "@a" 0 hl rfl]
  · simp only [aliasedRoom]
    rw [updateState_existing _ _ _ _ "@a" 0 hl rfl, getStateEvent_some, AList.lookup_insert]
    simp only [setMap_same, AList.lookup_insert, Option.getD_some]

/-- C4, amended (isolation): on a room with an initialised state map,
`UpdateState(e)` for a state event `e` of type `T` and state key `K1` leaves
`GetStateEvent T2 K2` as it was for every pair `(T2, K2)` other than `(T, K1)`
whose state key `K2` differs from `K1`, in particular for every other state key
of the same type; and for every such pair, whatever its state key, when the map
stored under `T2` is not the map object stored under `T`, as in every room
reachable from `NewRoom` by `UpdateState` calls. The call returns when no map
stored in the state map is nil. -/
theorem updateState_isolation (room : Room) (e : Event) (T : EventType) (K1 : String)
    (hstate : room.State ≠ none) (hT : e.Typ = T) (hK : e.StateKey = some K1)
    (T2 : EventType) (K2 : String) (hne : (T2, K2) ≠ (T, K1)) :
    (K2 ≠ K1 →
      (room.UpdateState (some e)).1.GetStateEvent T2 K2 = room.GetStateEvent T2 K2) ∧
    ((∀ r, room.State.index T2 = some (some r) → room.State.index T ≠ some (some r)) →
      (room.UpdateState (some e)).1.GetStateEvent T2 K2 = room.GetStateEvent T2 K2) ∧
    (Reachable room →
      (room.UpdateState (some e)).1.GetStateEvent T2 K2 = room.GetStateEvent T2 K2) ∧
    ((∀ t, room.State.index t ≠ some none) → (room.UpdateState (some e)).2 = none) := by
  have hbase : ¬ (T2 = e.Typ ∧ e.StateKey = some K2) := by
    rintro ⟨a, b⟩
    apply hne
    rw [hK] at b
    rw [a, hT, Option.some.inj b]
  refine ⟨?_, ?_, ?_, ?_⟩
  · intro hK2
    apply updateState_frame room e T2 K2 hbase
    intro _ hk2
    rw [hK] at hk2
    exact absurd (Option.some.inj hk2).symm hK2
  · intro hown
    apply updateState_frame room e T2 K2 hbase
    intro _ _ r h1
    rw [hT]
    exact hown r h1
  · intro hreach
    apply updateState_frame room e T2 K2 hbase
    intro ht _ r h1 h2
    exact ht (reachable_noSharing room hreach T2 e.Typ r h1 h2)
  · intro hinner
    exact updateState_returns room e K1 ⟨hstate, hinner⟩ hK

theorem updateState_isolation_witness :
    (((NewRoom "!r").UpdateState (some (sampleEvent "@a" "join"))).1.UpdateState
        (some (sampleEvent "@b" "join"))).1.GetStateEvent StateMember "@a" =
      ((NewRoom "!r").UpdateState (some (sampleEvent "@a" "join"))).1.GetStateEvent
        StateMember "@a" ∧
    (Reachable ((NewRoom "!r").UpdateState (some (sampleEvent "@a" "join"))).1 →
      (((NewRoom "!r").UpdateState (some (sampleEvent "@a" "join"))).1.UpdateState
        (some (sampleEvent "@b" "join"))).1.GetStateEvent sampleType "@b" =
      ((NewRoom "!r").UpdateState (some (sampleEvent "@a" "join"))).1.GetStateEvent
        sampleType "@b") ∧
    ((∀ t, ((NewRoom "!r").UpdateState (some (sampleEvent "@a" "join"))).1.State.index t
        ≠ some none) →
      (((NewRoom "!r").UpdateState (some (sampleEvent "@a" "join"))).1.UpdateState
        (some (sampleEvent "@b" "join"))).2 = none) :=
  ⟨(updateState_isolation ((NewRoom "!r").UpdateState (some (sampleEvent "@a" "join"))).1
      (sampleEvent "@b" "join") StateMember "@b"
      (updateState_initialised _ _ (newRoom_initialised "!r")).1
      rfl rfl StateMember "@a" (by decide)).1 (by decide),
   (updateState_isolation ((NewRoom "!r").UpdateState (some (sampleEvent "@a" "join"))).1
      (sampleEvent "@b" "join") StateMember "@b"
      (updateState_initialised _ _ (newRoom_initialised "!r")).1
      rfl rfl sampleType "@b" (by decide)).2.2.1,
   (updateState_isolation ((NewRoom "!r").UpdateState (some (sampleEvent "@a" "join"))).1
      (sampleEvent "@b" "join") StateMember "@b"
      (updateState_initialised _ _ (newRoom_initialised "!r")).1
      rfl rfl StateMember "@a" (by decide)).2.2.2⟩

/-! ## Room state store: membership, totality and safety -/

/-- C14 (default membership): for every room in which no event is stored
under `(StateMember, U)`, `GetMembershipState U` is `MembershipLeave`; in
particular for a room made by `NewRoom`, and for one to which only events of
other types or other state keys were applied. -/
theorem default_membership (room : Room) (U : String) (roomID : String) (evts : List Event)
    (h : ¬ ∃ e, room.Stores StateMember U e)
    (hevts : ∀ e ∈ evts, ¬ (e.Typ = StateMember ∧ e.StateKey = some U)) :
    room.GetMembershipState U = MembershipLeave ∧
    (NewRoom roomID).GetMembershipState U = MembershipLeave ∧
    ((NewRoom roomID).applyAll evts).1.GetMembershipState U = MembershipLeave := by
  have hnone : room.GetStateEvent StateMember U = none := by
    cases hg : room.GetStateEvent StateMember U with
    | none => rfl
    | some e => exact absurd ⟨e, (getStateEvent_iff_stores room StateMember U e).1 hg⟩ h
  refine ⟨getMembershipState_none room U hnone, ?_, ?_⟩
  · exact getMembershipState_none _ U (newRoom_getStateEvent roomID StateMember U)
  · apply getMembershipState_none
    rw [applyAll_frame StateMember U evts (NewRoom roomID) (newRoom_noSharing roomID) hevts]
    exact newRoom_getStateEvent roomID StateMember U

theorem default_membership_witness :
    ((NewRoom "!r").UpdateState (some (memberEvent "@b" (some (Json.str "join"))))).1.GetMembershipState
      "@a" = "leave" ∧
    (NewRoom "!room").GetMembershipState "@a" = "leave" ∧
    ((NewRoom "!room").applyAll
      [memberEvent "@b" (some (Json.str "join")),
       { Typ := { Name := "m.room.topic", Class := 1 }, StateKey := some "@a",
         Content := { Raw := none } }]).1.GetMembershipState "@a" = "leave" :=
  default_membership
    ((NewRoom "!r").UpdateState (some (memberEvent "@b" (some (Json.str "join"))))).1
    "@a" "!room"
    [memberEvent "@b" (some (Json.str "join")),
     { Typ := { Name := "m.room.topic", Class := 1 }, StateKey := some "@a",
       Content := { Raw := none } }]
    (by
      rintro ⟨e, he⟩
      have hg := (getStateEvent_iff_stores _ _ _ _).2 he
      rw [updateState_frame (NewRoom "!r") (memberEvent "@b" (some (Json.str "join")))
        StateMember "@a" (by decide) (fun h => absurd rfl h), newRoom_getStateEvent] at hg
      exact Option.noConfusion hg)
    (by decide)

/-- C15 (membership override): on a room with an initialised state map,
whenever `UpdateState` returns for a membership event of user `U` whose content
has `membership` equal to `"join"`, `GetMembershipState U` is `"join"`; whenever a
following `UpdateState` returns for such an event with `"leave"`, it is `"leave"`;
and both calls do return when no map stored in the state map is nil, as in every
room made by `NewRoom` and `UpdateState`. -/
theorem membership_override (room : Room) (U : String) (e₁ e₂ : Event)
    (hstate : room.State ≠ none)
    (h1T : e₁.Typ = StateMember) (h1K : e₁.StateKey = some U)
    (h1C : GoMap.index e₁.Content.Raw "membership" = some (Json.str "join"))
    (h2T : e₂.Typ = StateMember) (h2K : e₂.StateKey = some U)
    (h2C : GoMap.index e₂.Content.Raw "membership" = some (Json.str "leave")) :
    ((∀ t, room.State.index t ≠ some none) →
      (room.UpdateState (some e₁)).2 = none ∧
      ((room.UpdateState (some e₁)).1.UpdateState (some e₂)).2 = none) ∧
    ((room.UpdateState (some e₁)).2 = none →
      (room.UpdateState (some e₁)).1.GetMembershipState U = "join") ∧
    (((room.UpdateState (some e₁)).1.UpdateState (some e₂)).2 = none →
      ((room.UpdateState (some e₁)).1.UpdateState (some e₂)).1.GetMembershipState U = "leave") := by
  refine ⟨?_, ?_, ?_⟩
  · intro hinner
    have ha1 := updateState_returns room e₁ U ⟨hstate, hinner⟩ h1K
    have ha2 := updateState_initialised room (some e₁) ⟨hstate, hinner⟩
    exact ⟨ha1, updateState_returns (room.UpdateState (some e₁)).1 e₂ U ha2 h2K⟩
  · intro hret
    have hget := updateState_stores room e₁ U h1K hret
    rw [h1T] at hget
    rw [getMembershipState_some _ U e₁ hget, h1C]
  · intro hret
    have hget := updateState_stores (room.UpdateState (some e₁)).1 e₂ U h2K hret
    rw [h2T] at hget
    rw [getMembershipState_some _ U e₂ hget, h2C]

theorem membership_override_witness :
    ((∀ t, (NewRoom "!r").State.index t ≠ some none) →
      ((NewRoom "!r").UpdateState (some (memberEvent "@a" (some (Json.str "join"))))).2 = none ∧
      (((NewRoom "!r").UpdateState (some (memberEvent "@a" (some (Json.str "join"))))).1.UpdateState
        (some (memberEvent "@a" (some (Json.str "leave"))))).2 = none) ∧
    (((NewRoom "!r").UpdateState (some (memberEvent "@a" (some (Json.str "join"))))).2 = none →
      ((NewRoom "!r").UpdateState
        (some (memberEvent "@a" (some (Json.str "join"))))).1.GetMembershipState "@a" = "join") ∧
    ((((NewRoom "!r").UpdateState (some (memberEvent "@a" (some (Json.str "join"))))).1.UpdateState
        (some (memberEvent "@a" (some (Json.str "leave"))))).2 = none →
      (((NewRoom "!r").UpdateState (some (memberEvent "@a" (some (Json.str "join"))))).1.UpdateState
        (some (memberEvent "@a" (some (Json.str "leave"))))).1.GetMembershipState "@a" = "leave") :=
  membership_override (NewRoom "!r") "@a" (memberEvent "@a" (some (Json.str "join")))
    (memberEvent "@a" (some (Json.str "leave"))) (by simp [NewRoom]) rfl rfl rfl rfl rfl rfl

/-- C16 (membership fallback on unusable content): when the membership event
stored for user `U` has no raw content at all, or a raw content without a
`membership` key, or a `membership` value that is not a JSON string,
`GetMembershipState U` returns `MembershipLeave`. -/
theorem membership_fallback (room : Room) (U : String) (evt : Event)
    (hstored : room.Stores StateMember U evt)
    (hbad : evt.Content.Raw = none ∨
            GoMap.index evt.Content.Raw "membership" = none ∨
            ∃ j, GoMap.index evt.Content.Raw "membership" = some j ∧ j.asString = none) :
    room.GetMembershipState U = MembershipLeave := by
  rw [getMembershipState_some room U evt ((getStateEvent_iff_stores room _ U evt).2 hstored)]
  rcases hbad with h | h | ⟨j, h, hj⟩
  · rw [h]
    rfl
  · rw [h]
  · rw [h]
    cases j with
    | str s => simp [Json.asString] at hj
    | _ => rfl

theorem membership_fallback_witness :
    ((NewRoom "!r").UpdateState (some (memberEvent "@a" (some (Json.int 1))))).1.GetMembershipState
      "@a" = "leave" ∧
    ((NewRoom "!r").UpdateState (some (memberEvent "@a" none))).1.GetMembershipState
      "@a" = "leave" ∧
    ((NewRoom "!r").UpdateState (some
      { Typ := StateMember, StateKey := some "@a", Content := { Raw := none } })).1.GetMembershipState
      "@a" = "leave" :=
  ⟨membership_fallback _ "@a" (memberEvent "@a" (some (Json.int 1)))
      ((getStateEvent_iff_stores _ _ _ _).1
        (updateState_stores (NewRoom "!r") _ "@a" rfl (by decide)))
      (Or.inr (Or.inr ⟨Json.int 1, rfl, rfl⟩)),
   membership_fallback _ "@a" (memberEvent "@a" none)
      ((getStateEvent_iff_stores _ _ _ _).1
        (updateState_stores (NewRoom "!r") _ "@a" rfl (by decide)))
      (Or.inr (Or.inl rfl)),
   membership_fallback _ "@a"
      { Typ := StateMember, StateKey := some "@a", Content := { Raw := none } }
      ((getStateEvent_iff_stores _ _ _ _).1
        (updateState_stores (NewRoom "!r") _ "@a" rfl (by decide)))
      (Or.inl rfl)⟩

/-- C17 (room state queries are total and pure): for every room, whatever
its state map is (nil, or with a map for the type but nothing under the state
key), a call of `GetStateEvent` and a call of `GetMembershipState` end without
a panic and leave the room, its state map and the map objects it refers to, as
they were before the call; `GetStateEvent` returns the event stored for the
pair and returns nil exactly when no event is stored for it, and
`GetMembershipState` returns `MembershipLeave` or the `membership` string of
the stored membership event. -/
theorem queries_total (room : Room) (T : EventType) (K : String) (U : String) :
    (room.GetStateEventCall T K).2.1 = none ∧
    (room.GetStateEventCall T K).1 = room ∧
    (room.GetMembershipStateCall U).2.1 = none ∧
    (room.GetMembershipStateCall U).1 = room ∧
    (∀ e, room.GetStateEvent T K = some e ↔ room.Stores T K e) ∧
    (room.GetStateEvent T K = none ↔ ¬ ∃ e, room.Stores T K e) ∧
    (room.State = none →
      room.GetStateEvent T K = none ∧ room.GetMembershipState U = MembershipLeave) ∧
    (room.GetMembershipState U = MembershipLeave ∨
      ∃ evt m, room.Stores StateMember U evt ∧
        GoMap.index evt.Content.Raw "membership" = some (Json.str m) ∧
        room.GetMembershipState U = m) := by
  refine ⟨rfl, rfl, ?_, ?_, fun e => getStateEvent_iff_stores room T K e, ?_, ?_, ?_⟩
  · rw [getMembershipStateCall_eq]
  · rw [getMembershipStateCall_eq]
  · constructor
    · rintro h ⟨e, he⟩
      rw [(getStateEvent_iff_stores room T K e).2 he] at h
      simp at h
    · intro h
      cases hg : room.GetStateEvent T K with
      | none => rfl
      | some e => exact absurd ⟨e, (getStateEvent_iff_stores room T K e).1 hg⟩ h
  · intro hnil
    have hall : ∀ T' K', room.GetStateEvent T' K' = none := by
      intro T' K'
      simp [Room.GetStateEvent, Room.GetStateEventCall, GoMap.index, hnil]
    exact ⟨hall T K, getMembershipState_none room U (hall StateMember U)⟩
  · cases hg : room.GetStateEvent StateMember U with
    | none => exact Or.inl (getMembershipState_none room U hg)
    | some evt =>
      rw [getMembershipState_some room U evt hg]
      cases hi : GoMap.index evt.Content.Raw "membership" with
      | none => exact Or.inl rfl
      | some j =>
        cases j with
        | str m =>
          exact Or.inr ⟨evt, m, (getStateEvent_iff_stores room StateMember U evt).1 hg, hi, rfl⟩
        | _ => exact Or.inl rfl

/-- C18 (`UpdateState` is safe under its precondition): for every room
reachable from `NewRoom` by `UpdateState` calls and every event that carries a
state key, `UpdateState` returns without a panic, and afterwards
`GetStateEvent` for the event's type and state key returns that event. -/
theorem updateState_safe (room : Room) (e : Event) (k : String)
    (hreach : Reachable room) (hk : e.StateKey = some k) :
    (room.UpdateState (some e)).2 = none ∧
    (room.UpdateState (some e)).1.GetStateEvent e.Typ k = some e := by
  have hret := updateState_returns room e k (reachable_initialised room hreach) hk
  exact ⟨hret, updateState_stores room e k hk hret⟩

theorem updateState_safe_witness :
    ((((NewRoom "!r").UpdateState (some (memberEvent "@a" (some (Json.str "join"))))).1.UpdateState
        none).1.UpdateState (some (memberEvent "@b" (some (Json.str "invite"))))).2 = none ∧
    ((((NewRoom "!r").UpdateState (some (memberEvent "@a" (some (Json.str "join"))))).1.UpdateState
        none).1.UpdateState
        (some (memberEvent "@b" (some (Json.str "invite"))))).1.GetStateEvent StateMember "@b"
      = some (memberEvent "@b" (some (Json.str "invite"))) :=
  updateState_safe
    (((NewRoom "!r").UpdateState (some (memberEvent "@a" (some (Json.str "join"))))).1.UpdateState
      none).1
    (memberEvent "@b" (some (Json.str "invite"))) "@b"
    (Reachable.update _ _ (Reachable.update _ _ (Reachable.new "!r"))) rfl

/-- C19 (`GetMembershipState` does not validate the value): when the
membership event stored for user `U` has a string `membership` value `m`,
`GetMembershipState U` returns exactly `m`, whatever string it is, the empty one
included; it returns `MembershipLeave` instead when the value is absent or is
not a string. -/
theorem membership_not_validated (room : Room) (U : String) (evt : Event)
    (hstored : room.Stores StateMember U evt) :
    (∀ m, GoMap.index evt.Content.Raw "membership" = some (Json.str m) →
      room.GetMembershipState U = m) ∧
    ((∀ m, GoMap.index evt.Content.Raw "membership" ≠ some (Json.str m)) →
      room.GetMembershipState U = MembershipLeave) := by
  rw [getMembershipState_some room U evt ((getStateEvent_iff_stores room _ U evt).2 hstored)]
  constructor
  · intro m hm
    rw [hm]
  · intro hno
    cases hi : GoMap.index evt.Content.Raw "membership" with
    | none => rfl
    | some j =>
      cases j with
      | str m => exact absurd hi (hno m)
      | _ => rfl

theorem membership_not_validated_witness :
    ((NewRoom "!r").UpdateState
      (some (memberEvent "@a" (some (Json.str ""))))).1.GetMembershipState "@a" = "" ∧
    ((NewRoom "!r").UpdateState
      (some (memberEvent "@a" (some (Json.str "banana"))))).1.GetMembershipState "@a"
      = "banana" :=
  ⟨(membership_not_validated _ "@a" (memberEvent "@a" (some (Json.str "")))
      ((getStateEvent_iff_stores _ _ _ _).1
        (updateState_stores (NewRoom "!r") _ "@a" rfl (by decide)))).1 "" rfl,
   (membership_not_validated _ "@a" (memberEvent "@a" (some (Json.str "banana")))
      ((getStateEvent_iff_stores _ _ _ _).1
        (updateState_stores (NewRoom "!r") _ "@a" rfl (by decide)))).1 "banana" rfl⟩

/-- C20 (a failed `UpdateState` is not observable through queries): on a room
with an initialised state map, `UpdateState` with an event whose state key is
absent panics on the nil dereference, and `GetStateEvent` returns for every
pair what it returned before the call, although the call has inserted an empty
map for the event's type when the state map had none. -/
theorem failed_update_unobservable (room : Room) (e : Event)
    (hstate : room.State ≠ none) (hk : e.StateKey = none) :
    (room.UpdateState (some e)).2 = some Panic.nilPointerDereference ∧
    (∀ T K, (room.UpdateState (some e)).1.GetStateEvent T K = room.GetStateEvent T K) ∧
    (room.State.index e.Typ = none →
      ∃ r, (room.UpdateState (some e)).1.State.index e.Typ = some (some r) ∧
        (room.UpdateState (some e)).1.Maps r = ∅) := by
  refine ⟨?_, ?_, ?_⟩
  · obtain ⟨id, st, maps⟩ := room
    cases st with
    | none => exact absurd rfl hstate
    | some a =>
      cases hl : a.lookup e.Typ <;>
        simp [Room.UpdateState, GoMap.index, GoMap.assign, hl, hk]
  · intro T K
    apply updateState_frame
    · rintro ⟨_, h⟩
      rw [hk] at h
      simp at h
    · intro _ h
      rw [hk] at h
      simp at h
  · obtain ⟨id, st, maps⟩ := room
    cases st with
    | none => exact absurd rfl hstate
    | some a =>
      intro hl
      simp only [GoMap.index] at hl
      rw [updateState_fresh_nokey id a maps e hl hk]
      refine ⟨freshRef (some a), ?_, setMap_same _ _ _⟩
      simp [GoMap.index]

theorem failed_update_unobservable_witness :
    ((NewRoom "!r").UpdateState (some
      { Typ := StateMember, StateKey := none, Content := { Raw := none } })).2
      = some Panic.nilPointerDereference ∧
    (∀ T K, ((NewRoom "!r").UpdateState (some
      { Typ := StateMember, StateKey := none, Content := { Raw := none } })).1.GetStateEvent T K
      = (NewRoom "!r").GetStateEvent T K) ∧
    ((NewRoom "!r").State.index StateMember = none →
      ∃ r, ((NewRoom "!r").UpdateState (some
        { Typ := StateMember, StateKey := none, Content := { Raw := none } })).1.State.index
        StateMember = some (some r) ∧
        ((NewRoom "!r").UpdateState (some
          { Typ := StateMember, StateKey := none, Content := { Raw := none } })).1.Maps r = ∅) :=
  failed_update_unobservable (NewRoom "!r")
    { Typ := StateMember, StateKey := none, Content := { Raw := none } }
    (by simp [NewRoom]) rfl

end Mautrix
